import Mathlib

/-!
Verification of the StACSOS buddy page allocator (`page_allocator_buddy`).

The development shallowly embeds `page-allocator-buddy.cpp` (the complete
revision, the one with `assert`-based error handling; it appears verbatim in
the repository).  Pages are identified by their frame number (`pfn : Nat`),
the free-list table becomes a function from order to the list of block-head
frame numbers, and every fallible operation returns `Option`: a result of
`none` models a failed `assert` (fatal halt) or undefined behaviour, while
`some s` models normal return with post-state `s`.

C++ loops are translated to structurally recursive functions with an explicit
fuel argument.  In every case the fuel passed at the call site dominates the
number of iterations the C++ loop can perform (each loop either increments a
counter bounded by `LastOrder`, or advances a frame pointer by at least one
page through a range of `page_count` pages), so fuel exhaustion is
unreachable and the functions compute exactly what the source loops compute.

`LastOrder` comes from the class header, which is not part of the sources;
every definition is therefore parametrised by `lo : Nat` standing for
`LastOrder`.
-/

namespace BuddyAlloc

/-- Page state tag, from the page descriptor (`page_state::free` /
`page_state::allocated`). -/
inductive page_state : Type where
  | free : page_state
  | allocated : page_state
deriving DecidableEq, Repr

/-- Allocator state: the free-list table (order to ascending list of
block-head frame numbers, representing the intrusive `next_free_` chains),
the per-page `state_` tag, the per-page `free_block_size_` field, and the
running `total_free_` counter (a u64). The page descriptor table of the
external page registry is represented by the two per-page functions. -/
structure buddy : Type where
  free_list : Nat → List Nat
  st : Nat → page_state
  fbs : Nat → Nat
  total_free : Nat

/-- Modelled from the spec: `pages_per_block(order)` is `2^order` pages
(the header is not among the sources; the spec defines a block of order `k`
to span `2^k` pages). -/
def pages_per_block (order : Nat) : Nat := 2 ^ order

/-- Modelled from the spec: `block_aligned(order, pfn)` holds when the frame
number is aligned to `2^order` pages (invariant I2 of the spec; the helper
itself lives in the missing header). -/
def block_aligned (order pfn : Nat) : Prop := pfn % 2 ^ order = 0

instance (order pfn : Nat) : Decidable (block_aligned order pfn) := by
  unfold block_aligned; infer_instance

/-- Pointwise update of a table indexed by `Nat`. -/
def upd {α : Type} (f : Nat → α) (i : Nat) (v : α) : Nat → α :=
  fun j => if j = i then v else f j

/-- Modelled from the spec: the allocator before any `insert_pages` call has
every free list empty and `total_free` zero; the initial page-descriptor
contents are unspecified, so they are a parameter. -/
def init (st0 : Nat → page_state) : buddy :=
  { free_list := fun _ => [], st := st0, fbs := fun _ => 0, total_free := 0 }

/-- Wrap-around addition on the u64 counter `total_free_`. -/
def add64 (a b : Nat) : Nat := (a + b) % 2 ^ 64

/-- Wrap-around subtraction on the u64 counter `total_free_`. -/
def sub64 (a b : Nat) : Nat := (a + (2 ^ 64 - b % 2 ^ 64)) % 2 ^ 64

/-- The sorted-insertion scan of `insert_free_block`: walk while the current
node's address is below the target, then `assert(*slot != target)` (`none`
on failure) and link the target in. -/
def insert_scan (b : Nat) : List Nat → Option (List Nat)
  | [] => some [b]
  | x :: xs =>
      if x < b then (insert_scan b xs).map (fun l => x :: l)
      else if x = b then none
      else some (b :: x :: xs)

/-- The pure insertion the scan performs when it does not hit the assert:
place `b` in front of the first element that is not below it. -/
def ins (b : Nat) : List Nat → List Nat
  | [] => [b]
  | x :: xs => if x < b then x :: ins b xs else b :: x :: xs

/-- The removal scan of `remove_free_block`: walk to the node equal to the
target (`assert` failure, `none`, when the list ends first) and unlink it. -/
def remove_scan (b : Nat) : List Nat → Option (List Nat)
  | [] => none
  | x :: xs =>
      if x = b then some xs
      else (remove_scan b xs).map (fun l => x :: l)

/-- The pure removal the scan performs on success: drop the first occurrence
of `b`. -/
def erase_first (b : Nat) : List Nat → List Nat
  | [] => []
  | x :: xs => if x = b then xs else x :: erase_first b xs

/-- `page_allocator_buddy::insert_free_block`: asserts the order is in
range and the block aligned, then inserts into the sorted free list,
asserting the block is not already linked there. -/
def insert_free_block (lo order b : Nat) (s : buddy) : Option buddy :=
  if lo < order then none
  else if ¬ block_aligned order b then none
  else (insert_scan b (s.free_list order)).map
    (fun l => { s with free_list := upd s.free_list order l })

/-- `page_allocator_buddy::remove_free_block`: asserts the order is in
range and the block aligned, then unlinks the block, asserting it is
present. -/
def remove_free_block (lo order b : Nat) (s : buddy) : Option buddy :=
  if lo < order then none
  else if ¬ block_aligned order b then none
  else (remove_scan b (s.free_list order)).map
    (fun l => { s with free_list := upd s.free_list order l })

/-- `page_allocator_buddy::split_block`: assert `order` in `[1, LastOrder]`,
remove the block from list `order`, and insert the two halves (the block and
its sibling at `pfn + 2^(order-1)`) into list `order - 1`. -/
def split_block (lo order b : Nat) (s : buddy) : Option buddy :=
  if ¬ (1 ≤ order ∧ order ≤ lo) then none
  else
    (remove_free_block lo order b s).bind fun s1 =>
      (insert_free_block lo (order - 1) b s1).bind fun s2 =>
        insert_free_block lo (order - 1) (b + pages_per_block (order - 1)) s2

/-- `page_allocator_buddy::merge_buddies`: assert `order` in
`[0, LastOrder)`; the buddy frame is `pfn XOR 2^order`; if the buddy's head
page is `free` and the buddy is aligned, remove both blocks from list
`order` and insert the lower-addressed one into list `order + 1`; otherwise
do nothing. -/
def merge_buddies (lo order b : Nat) (s : buddy) : Option buddy :=
  if ¬ order < lo then none
  else
    if s.st (b ^^^ pages_per_block order) = page_state.free ∧
        block_aligned order (b ^^^ pages_per_block order) then
      (remove_free_block lo order b s).bind fun s1 =>
        (remove_free_block lo order (b ^^^ pages_per_block order) s1).bind fun s2 =>
          insert_free_block lo (order + 1)
            (if (b ^^^ pages_per_block order) < b then b ^^^ pages_per_block order else b) s2
    else some s

/-- The upward scan of `allocate_pages` for the first non-empty free list at
or above the requested order (`while (current_order <= LastOrder &&
!free_list_[current_order]) current_order++`), fuelled by the number of
orders left to visit. -/
def scan_aux (lo : Nat) (s : buddy) : Nat → Nat → Option Nat
  | 0, _ => none
  | fuel + 1, o =>
      if lo < o then none
      else if s.free_list o = [] then scan_aux lo s fuel (o + 1)
      else some o

/-- First non-empty free list at or above `order`, `none` when every list up
to `LastOrder` is empty. -/
def scan_order (lo order : Nat) (s : buddy) : Option Nat :=
  scan_aux lo s (lo + 1 - order) order

/-- The splitting loop of `allocate_pages` (`while (current_order > order)`,
taking the head of the current list and splitting it); `n` is
`current_order - order`, the exact number of iterations left.  The head of an
empty list would be a null-pointer dereference, modelled as `none`. -/
def split_loop (lo base : Nat) : Nat → buddy → Option buddy
  | 0, s => some s
  | n + 1, s =>
      match s.free_list (base + n + 1) with
      | [] => none
      | b :: _ => (split_block lo (base + n + 1) b s).bind (split_loop lo base n)

/-- `page_allocator_buddy::allocate_pages`: returns `nullptr` (modelled as
result `none` inside a normal return) when the order is out of range or no
list at or above it is non-empty; otherwise splits downward, unlinks the head
block of list `order`, marks its head page allocated and subtracts
`2^order` from `total_free_`.  The `flags` argument of the source is ignored
wholesale by the function, so it is not modelled. -/
def allocate_pages (lo order : Nat) (s : buddy) : Option (Option Nat × buddy) :=
  if lo < order then some (none, s)
  else
    match scan_order lo order s with
    | none => some (none, s)
    | some co =>
        (split_loop lo order (co - order) s).bind fun s1 =>
          match s1.free_list order with
          | [] => none
          | b :: _ =>
              (remove_free_block lo order b s1).map fun s2 =>
                (some b,
                  { s2 with
                      st := upd s2.st b page_state.allocated,
                      total_free := sub64 s2.total_free (pages_per_block order) })

/-- The merge cascade of `free_pages` (`while (order < LastOrder)`), fuelled
by the number of orders left below `LastOrder`.  Note that the source keeps
using the originally freed block's frame `b` at every iteration; it does not
move to the merged (lower-addressed) block. -/
def free_loop (lo b : Nat) : Nat → Nat → buddy → Option buddy
  | 0, _, s => some s
  | fuel + 1, order, s =>
      if ¬ order < lo then some s
      else
        if s.st (b ^^^ pages_per_block order) ≠ page_state.free ∨
            ¬ block_aligned order (b ^^^ pages_per_block order) then some s
        else
          (merge_buddies lo order b s).bind fun s1 =>
            free_loop lo b fuel (order + 1) s1

/-- `page_allocator_buddy::free_pages`: assert the order in range, mark the
head page free, insert the block into list `order`, add `2^order` to
`total_free_`, then run the merge cascade. -/
def free_pages (lo b order : Nat) (s : buddy) : Option buddy :=
  if lo < order then none
  else
    (insert_free_block lo order b { s with st := upd s.st b page_state.free }).bind
      fun s1 =>
        free_loop lo b (lo - order)
          order { s1 with total_free := add64 s1.total_free (pages_per_block order) }

/-- The order-choosing loop of `insert_pages` (`while ((start_pfn +
max_block_size <= end_pfn) && block_aligned(order, start_pfn) && order <
LastOrder) order++`): returns the exit value of `order`.  The guard
`order < lo` bounds the iterations, so fuel `lo - o` is exact. -/
def choose_aux (lo start endp : Nat) : Nat → Nat → Nat
  | 0, o => o
  | fuel + 1, o =>
      if start + pages_per_block o ≤ endp ∧ block_aligned o start ∧ o < lo then
        choose_aux lo start endp fuel (o + 1)
      else o

/-- The loop body of `insert_pages`: at each position the exit order of the
choosing loop is decremented (`order--`); an exit order of `0` makes the C++
`order` equal to `-1`, which the following `insert_free_block` rejects
fatally (`assert(order >= 0)`), modelled as `none`.  Otherwise the block's
head page records `free_block_size_ = 2^order` and the block is inserted.
Each completed iteration advances by at least one page, so fuel
`end - start` (the page count) is enough. -/
def insert_aux (lo : Nat) : Nat → Nat → Nat → buddy → Option buddy
  | 0, start, endp, s => if start < endp then none else some s
  | fuel + 1, start, endp, s =>
      if start < endp then
        match choose_aux lo start endp lo 0 with
        | 0 => none
        | oe + 1 =>
            (insert_free_block lo oe start
                { s with fbs := upd s.fbs start (pages_per_block oe) }).bind
              fun s2 => insert_aux lo fuel (start + pages_per_block oe) endp s2
      else some s

/-- `page_allocator_buddy::insert_pages(range_start, page_count)`. -/
def insert_pages (lo start count : Nat) (s : buddy) : Option buddy :=
  insert_aux lo count start (start + count) s

/-- The order-recovery loop of `remove_pages` when `free_block_size_` is
set: the least `order` with `2^order >= block_size`.  Since `o < 2^o`, the
loop runs fewer than `bs` iterations, so fuel `bs` is enough. -/
def order_of_size (bs : Nat) : Nat → Nat → Nat
  | 0, o => o
  | fuel + 1, o => if pages_per_block o < bs then order_of_size bs fuel (o + 1) else o

/-- The fallback order-recovery loop of `remove_pages` when
`free_block_size_` is zero (`while (order <= LastOrder &&
!block_aligned(order, start_pfn)) order++`). -/
def fb_scan (lo start : Nat) : Nat → Nat → Nat
  | 0, o => o
  | fuel + 1, o =>
      if o ≤ lo ∧ ¬ block_aligned o start then fb_scan lo start fuel (o + 1) else o

/-- The order recovery of `remove_pages` at one position: from the head
page's `free_block_size_` when it is non-zero, otherwise the alignment
fallback scan (the C++ stores this in the local variable `order`). -/
def derive_order (lo start : Nat) (s : buddy) : Nat :=
  if 0 < s.fbs start then order_of_size (s.fbs start) (s.fbs start) 0
  else fb_scan lo start (lo + 1) 0

/-- The loop body of `remove_pages`: derive each block's order from its head
page's `free_block_size_` (falling back to the alignment scan when that is
zero), `assert(order <= LastOrder)`, remove the block at that order and
advance by `2^order` pages.  Every completed iteration advances by at least
one page, so fuel `end - start` (the page count) is enough. -/
def remove_aux (lo : Nat) : Nat → Nat → Nat → buddy → Option buddy
  | 0, start, endp, s => if start < endp then none else some s
  | fuel + 1, start, endp, s =>
      if start < endp then
        if lo < derive_order lo start s then none
        else
          (remove_free_block lo (derive_order lo start s) start s).bind fun s1 =>
            remove_aux lo fuel (start + pages_per_block (derive_order lo start s)) endp s1
      else some s

/-- Unlinking one block occurrence from one free list, the state effect of
a successful `remove_free_block`. -/
def unlink (k b : Nat) (s : buddy) : buddy :=
  { s with free_list := upd s.free_list k (erase_first b (s.free_list k)) }

/-- `page_allocator_buddy::remove_pages(range_start, page_count)`. -/
def remove_pages (lo start count : Nat) (s : buddy) : Option buddy :=
  remove_aux lo count start (start + count) s

/-- The `remove_free_block` of the other revision in
`page-allocator-buddy.cpp` (the one flagged by the spec as an anti-pattern):
same order and alignment asserts, but when the scan does not find the block
it only logs an error and returns, leaving the free lists untouched. -/
def remove_free_block_logging (lo order b : Nat) (s : buddy) : Option buddy :=
  if lo < order then none
  else if ¬ block_aligned order b then none
  else
    match remove_scan b (s.free_list order) with
    | none => some s
    | some l => some { s with free_list := upd s.free_list order l }

/-- A convenient boot state: every page descriptor initially tagged
allocated (the spec leaves boot-time descriptor contents unspecified). -/
def initAllocated : buddy := init (fun _ => page_state.allocated)

/-- The spec's conservation sum (§8, I5): over all orders up to `LastOrder`,
`2^order * list_length(order)`.  Written from the spec's words, to be
compared with the `total_free_` the code maintains. -/
def sum_free (lo : Nat) (s : buddy) : Nat :=
  (List.range (lo + 1)).foldr (fun o a => pages_per_block o * (s.free_list o).length + a) 0

/-- Invariant I3: every free list is strictly sorted by frame number. -/
def sorted_inv (s : buddy) : Prop :=
  ∀ o, List.Sorted (· < ·) (s.free_list o)

/-- The spec's no-overlap property (§8): any two distinct block occurrences
across the free lists cover disjoint frame ranges. -/
def no_overlap (s : buddy) : Prop :=
  ∀ o1 b1 o2 b2, b1 ∈ s.free_list o1 → b2 ∈ s.free_list o2 →
    ¬ (o1 = o2 ∧ b1 = b2) →
    b1 + 2 ^ o1 ≤ b2 ∨ b2 + 2 ^ o2 ≤ b1

/-- The combined free-list structural invariant: sortedness plus
no-overlap. -/
def Inv (s : buddy) : Prop := sorted_inv s ∧ no_overlap s

/-- A concrete state with one order-2 block pair, used for witnesses: the
state Scenario A's insert produces. -/
def stw : buddy :=
  { free_list := fun o => if o = 2 then [0, 4] else [],
    st := fun _ => page_state.allocated,
    fbs := fun p => if p = 0 ∨ p = 4 then 4 else 0,
    total_free := 0 }

/-- A concrete state with two order-1 buddies whose heads are free, used
for the merge witness. -/
def stw_merge : buddy :=
  { free_list := fun o => if o = 1 then [0, 2] else [],
    st := fun p => if p = 2 ∨ p = 0 then page_state.free else page_state.allocated,
    fbs := fun _ => 0,
    total_free := 4 }

theorem insert_scan_eq_ins {b : Nat} :
    ∀ {l l' : List Nat}, insert_scan b l = some l' → l' = ins b l := by
  intro l
  induction l with
  | nil => intro l' h; simp [insert_scan] at h; simp [ins, h.symm]
  | cons x xs ih =>
      intro l' h
      by_cases hx : x < b
      · simp [insert_scan, hx] at h
        obtain ⟨l₂, h₂, rfl⟩ := h
        simp [ins, hx, ih h₂]
      · by_cases he : x = b
        · simp [insert_scan, hx, he] at h
        · simp [insert_scan, hx, he] at h
          simp [ins, hx, h.symm]

theorem insert_scan_of_not_mem {b : Nat} :
    ∀ {l : List Nat}, b ∉ l → insert_scan b l = some (ins b l) := by
  intro l
  induction l with
  | nil => intro _; simp [insert_scan, ins]
  | cons x xs ih =>
      intro hb
      have hxb : x ≠ b := fun h => hb (by simp [h])
      by_cases hx : x < b
      · have : b ∉ xs := fun h => hb (by simp [h])
        simp [insert_scan, ins, hx, ih this]
      · simp [insert_scan, ins, hx, hxb]

theorem mem_ins {b x : Nat} : ∀ {l : List Nat}, x ∈ ins b l ↔ x = b ∨ x ∈ l := by
  intro l
  induction l with
  | nil => simp [ins]
  | cons y ys ih =>
      by_cases hy : y < b
      · simp only [ins, if_pos hy, List.mem_cons, ih]
        try tauto
      · simp only [ins, if_neg hy, List.mem_cons]
        try tauto

theorem sorted_ins {b : Nat} :
    ∀ {l : List Nat}, List.Sorted (· < ·) l → b ∉ l →
      List.Sorted (· < ·) (ins b l) := by
  intro l
  induction l with
  | nil => intro _ _; simp [ins]
  | cons x xs ih =>
      intro hs hb
      have hxxs := (List.sorted_cons.mp hs).1
      have hsxs := (List.sorted_cons.mp hs).2
      have hxb : x ≠ b := fun h => hb (by simp [h])
      by_cases hx : x < b
      · have hbxs : b ∉ xs := fun h => hb (by simp [h])
        simp only [ins, if_pos hx]
        refine List.sorted_cons.mpr ⟨?_, ih hsxs hbxs⟩
        intro y hy
        rcases mem_ins.mp hy with rfl | hy'
        · exact hx
        · exact hxxs y hy'
      · have hbx : b < x := lt_of_le_of_ne (not_lt.mp hx) (fun h => hxb h.symm)
        simp only [ins, if_neg hx]
        refine List.sorted_cons.mpr ⟨?_, hs⟩
        intro y hy
        rcases List.mem_cons.mp hy with rfl | hy'
        · exact hbx
        · exact lt_trans hbx (hxxs y hy')

theorem not_mem_of_sorted_insert_scan {b : Nat} :
    ∀ {l l' : List Nat}, List.Sorted (· < ·) l → insert_scan b l = some l' →
      b ∉ l := by
  intro l
  induction l with
  | nil => intro l' _ _; simp
  | cons x xs ih =>
      intro l' hs h
      have hxxs := (List.sorted_cons.mp hs).1
      have hsxs := (List.sorted_cons.mp hs).2
      by_cases hx : x < b
      · simp [insert_scan, hx] at h
        obtain ⟨l₂, h₂, _⟩ := h
        intro hmem
        rcases List.mem_cons.mp hmem with rfl | hmem'
        · exact absurd hx (lt_irrefl b)
        · exact ih hsxs h₂ hmem'
      · by_cases he : x = b
        · simp [insert_scan, hx, he] at h
        · intro hmem
          rcases List.mem_cons.mp hmem with rfl | hmem'
          · exact he rfl
          · exact hx (hxxs b hmem')

theorem remove_scan_eq {b : Nat} :
    ∀ {l l' : List Nat}, remove_scan b l = some l' ↔ (b ∈ l ∧ l' = erase_first b l) := by
  intro l
  induction l with
  | nil => intro l'; simp [remove_scan]
  | cons x xs ih =>
      intro l'
      by_cases hx : x = b
      · subst hx
        simp [remove_scan, erase_first]
        constructor
        · intro h; exact h.symm
        · intro h; exact h.symm
      · simp only [remove_scan, if_neg hx, erase_first]
        constructor
        · intro h
          simp only [Option.map_eq_some'] at h
          obtain ⟨l₂, h₂, rfl⟩ := h
          obtain ⟨hm, rfl⟩ := ih.mp h₂
          exact ⟨List.mem_cons_of_mem _ hm, rfl⟩
        · rintro ⟨hm, rfl⟩
          rcases List.mem_cons.mp hm with rfl | hm'
          · exact absurd rfl hx
          · simp [ih.mpr ⟨hm', rfl⟩]

theorem erase_first_sublist (b : Nat) :
    ∀ (l : List Nat), List.Sublist (erase_first b l) l := by
  intro l
  induction l with
  | nil => simp [erase_first]
  | cons x xs ih =>
      by_cases hx : x = b
      · rw [erase_first, if_pos hx, hx]
        exact List.sublist_cons_self b xs
      · rw [erase_first, if_neg hx]
        exact List.Sublist.cons₂ x ih

theorem mem_of_mem_erase_first {b x : Nat} {l : List Nat}
    (h : x ∈ erase_first b l) : x ∈ l :=
  (erase_first_sublist b l).mem h

theorem sorted_erase_first {b : Nat} {l : List Nat}
    (h : List.Sorted (· < ·) l) : List.Sorted (· < ·) (erase_first b l) :=
  List.Pairwise.sublist (erase_first_sublist b l) h

theorem not_mem_erase_first_of_sorted {b : Nat} :
    ∀ {l : List Nat}, List.Sorted (· < ·) l → b ∉ erase_first b l := by
  intro l
  induction l with
  | nil => intro _; simp [erase_first]
  | cons x xs ih =>
      intro hs
      have hxxs := (List.sorted_cons.mp hs).1
      have hsxs := (List.sorted_cons.mp hs).2
      by_cases hx : x = b
      · subst hx
        simp only [erase_first, if_pos rfl]
        intro hmem
        exact absurd (hxxs x hmem) (lt_irrefl x)
      · simp only [erase_first, if_neg hx]
        intro hmem
        rcases List.mem_cons.mp hmem with rfl | hm'
        · exact hx rfl
        · exact ih hsxs hm'

theorem mem_erase_first_of_ne {b x : Nat} :
    ∀ {l : List Nat}, x ∈ l → x ≠ b → x ∈ erase_first b l := by
  intro l
  induction l with
  | nil => intro h _; simp at h
  | cons y ys ih =>
      intro hmem hne
      by_cases hy : y = b
      · subst hy
        rcases List.mem_cons.mp hmem with rfl | hm'
        · exact absurd rfl hne
        · simpa [erase_first] using hm'
      · rcases List.mem_cons.mp hmem with rfl | hm'
        · simp [erase_first, hy]
        · simp [erase_first, hy, ih hm' hne]

theorem insert_free_block_some {lo o b : Nat} {s s' : buddy}
    (h : insert_free_block lo o b s = some s') :
    o ≤ lo ∧ block_aligned o b ∧
      insert_scan b (s.free_list o) = some (ins b (s.free_list o)) ∧
      s'.free_list = upd s.free_list o (ins b (s.free_list o)) ∧
      s'.st = s.st ∧ s'.fbs = s.fbs ∧ s'.total_free = s.total_free := by
  unfold insert_free_block at h
  by_cases hlo : lo < o
  · simp [hlo] at h
  · by_cases ha : block_aligned o b
    · simp only [if_neg hlo, if_neg (not_not_intro ha), Option.map_eq_some'] at h
      obtain ⟨l, hl, rfl⟩ := h
      have := insert_scan_eq_ins hl
      subst this
      exact ⟨Nat.le_of_not_lt hlo, ha, hl, rfl, rfl, rfl, rfl⟩
    · simp [hlo, ha] at h

theorem insert_free_block_of_not_mem {lo o b : Nat} {s : buddy}
    (ho : o ≤ lo) (ha : block_aligned o b) (hb : b ∉ s.free_list o) :
    insert_free_block lo o b s =
      some { s with free_list := upd s.free_list o (ins b (s.free_list o)) } := by
  unfold insert_free_block
  simp [Nat.not_lt.mpr ho, ha, insert_scan_of_not_mem hb]

theorem insert_free_block_ex (lo o b : Nat) (s : buddy)
    (ho : o ≤ lo) (ha : block_aligned o b) (hb : b ∉ s.free_list o) :
    ∃ s', insert_free_block lo o b s = some s' ∧
      s'.free_list = upd s.free_list o (ins b (s.free_list o)) ∧
      s'.st = s.st ∧ s'.fbs = s.fbs ∧ s'.total_free = s.total_free :=
  ⟨_, insert_free_block_of_not_mem ho ha hb, rfl, rfl, rfl, rfl⟩

theorem remove_free_block_some {lo o b : Nat} {s s' : buddy}
    (h : remove_free_block lo o b s = some s') :
    o ≤ lo ∧ block_aligned o b ∧ b ∈ s.free_list o ∧
      s'.free_list = upd s.free_list o (erase_first b (s.free_list o)) ∧
      s'.st = s.st ∧ s'.fbs = s.fbs ∧ s'.total_free = s.total_free := by
  unfold remove_free_block at h
  by_cases hlo : lo < o
  · simp [hlo] at h
  · by_cases ha : block_aligned o b
    · simp only [if_neg hlo, if_neg (not_not_intro ha), Option.map_eq_some'] at h
      obtain ⟨l, hl, rfl⟩ := h
      obtain ⟨hm, rfl⟩ := remove_scan_eq.mp hl
      exact ⟨Nat.le_of_not_lt hlo, ha, hm, rfl, rfl, rfl, rfl⟩
    · simp [hlo, ha] at h

theorem remove_free_block_of_mem {lo o b : Nat} {s : buddy}
    (ho : o ≤ lo) (ha : block_aligned o b) (hb : b ∈ s.free_list o) :
    remove_free_block lo o b s =
      some { s with free_list := upd s.free_list o (erase_first b (s.free_list o)) } := by
  unfold remove_free_block
  simp [Nat.not_lt.mpr ho, ha, remove_scan_eq.mpr ⟨hb, rfl⟩]

theorem remove_free_block_ex (lo o b : Nat) (s : buddy)
    (ho : o ≤ lo) (ha : block_aligned o b) (hb : b ∈ s.free_list o) :
    ∃ s', remove_free_block lo o b s = some s' ∧
      s'.free_list = upd s.free_list o (erase_first b (s.free_list o)) ∧
      s'.st = s.st ∧ s'.fbs = s.fbs ∧ s'.total_free = s.total_free :=
  ⟨_, remove_free_block_of_mem ho ha hb, rfl, rfl, rfl, rfl⟩

theorem upd_same {α : Type} (f : Nat → α) (i : Nat) (v : α) : upd f i v i = v := by
  simp [upd]

theorem upd_other {α : Type} (f : Nat → α) {i j : Nat} (v : α) (h : j ≠ i) :
    upd f i v j = f j := by
  simp [upd, h]

theorem upd_upd_same {α : Type} (f : Nat → α) (i : Nat) (v w : α) :
    upd (upd f i v) i w = upd f i w := by
  funext j
  by_cases h : j = i <;> simp [upd, h]

theorem block_aligned_mono {j k b : Nat} (h : j ≤ k) (hb : block_aligned k b) :
    block_aligned j b := by
  unfold block_aligned at *
  obtain ⟨c, rfl⟩ : 2 ^ j ∣ b :=
    dvd_trans (pow_dvd_pow 2 h) (Nat.dvd_of_mod_eq_zero hb)
  simp [Nat.mul_mod_right]

theorem block_aligned_add_self {j b : Nat} (hb : block_aligned j b) :
    block_aligned j (b + 2 ^ j) := by
  unfold block_aligned at *
  simpa [Nat.add_mod_right] using hb

theorem split_block_some {lo k b : Nat} {s s' : buddy}
    (h : split_block lo k b s = some s') :
    1 ≤ k ∧ k ≤ lo ∧ block_aligned k b ∧ b ∈ s.free_list k ∧
      insert_scan b (s.free_list (k - 1)) = some (ins b (s.free_list (k - 1))) ∧
      insert_scan (b + 2 ^ (k - 1)) (ins b (s.free_list (k - 1))) =
        some (ins (b + 2 ^ (k - 1)) (ins b (s.free_list (k - 1)))) ∧
      s'.free_list = upd (upd s.free_list k (erase_first b (s.free_list k))) (k - 1)
        (ins (b + 2 ^ (k - 1)) (ins b (s.free_list (k - 1)))) ∧
      s'.st = s.st ∧ s'.fbs = s.fbs ∧ s'.total_free = s.total_free := by
  unfold split_block at h
  by_cases hk : 1 ≤ k ∧ k ≤ lo
  · simp only [if_neg (not_not_intro hk), Option.bind_eq_some] at h
    obtain ⟨s1, h1, h'⟩ := h
    obtain ⟨s2, h2, h3⟩ := h'
    obtain ⟨_, ha, hmem, hf1, hst1, hb1, ht1⟩ := remove_free_block_some h1
    have hkk : k - 1 ≠ k := by omega
    obtain ⟨_, _, hsc2, hf2, hst2, hb2, ht2⟩ := insert_free_block_some h2
    obtain ⟨_, _, hsc3, hf3, hst3, hb3, ht3⟩ := insert_free_block_some h3
    rw [hf1, upd_other _ _ hkk] at hsc2
    rw [hf2, hf1, upd_same, upd_other _ _ hkk] at hsc3
    refine ⟨hk.1, hk.2, ha, hmem, hsc2, by simpa [pages_per_block] using hsc3, ?_, ?_, ?_, ?_⟩
    · rw [hf3, hf2, hf1, upd_upd_same, upd_same, upd_other _ _ hkk]
      simp [pages_per_block]
    · rw [hst3, hst2, hst1]
    · rw [hb3, hb2, hb1]
    · rw [ht3, ht2, ht1]
  · simp [hk] at h

theorem merge_buddies_noop {lo k b : Nat} {s : buddy} (hk : k < lo)
    (h : ¬ (s.st (b ^^^ 2 ^ k) = page_state.free ∧
            block_aligned k (b ^^^ 2 ^ k))) :
    merge_buddies lo k b s = some s := by
  unfold merge_buddies
  simp only [pages_per_block, if_neg (not_not_intro hk)]
  rw [if_neg h]

theorem merge_buddies_some {lo k b : Nat} {s s' : buddy}
    (h : merge_buddies lo k b s = some s') :
    k < lo ∧
      ((¬ (s.st (b ^^^ 2 ^ k) = page_state.free ∧
            block_aligned k (b ^^^ 2 ^ k)) ∧ s' = s) ∨
       (s.st (b ^^^ 2 ^ k) = page_state.free ∧
        block_aligned k (b ^^^ 2 ^ k) ∧ block_aligned k b ∧
        block_aligned (k + 1) (if (b ^^^ 2 ^ k) < b then b ^^^ 2 ^ k else b) ∧
        b ∈ s.free_list k ∧
        (b ^^^ 2 ^ k) ∈ erase_first b (s.free_list k) ∧
        insert_scan (if (b ^^^ 2 ^ k) < b then b ^^^ 2 ^ k else b) (s.free_list (k + 1)) =
          some (ins (if (b ^^^ 2 ^ k) < b then b ^^^ 2 ^ k else b) (s.free_list (k + 1))) ∧
        s'.free_list = upd (upd s.free_list k
            (erase_first (b ^^^ 2 ^ k) (erase_first b (s.free_list k)))) (k + 1)
          (ins (if (b ^^^ 2 ^ k) < b then b ^^^ 2 ^ k else b) (s.free_list (k + 1))) ∧
        s'.st = s.st ∧ s'.fbs = s.fbs ∧ s'.total_free = s.total_free)) := by
  unfold merge_buddies at h
  by_cases hk : k < lo
  · simp only [pages_per_block, if_neg (not_not_intro hk)] at h
    by_cases hc : s.st (b ^^^ 2 ^ k) = page_state.free ∧ block_aligned k (b ^^^ 2 ^ k)
    · rw [if_pos hc] at h
      simp only [Option.bind_eq_some] at h
      obtain ⟨s1, h1, h'⟩ := h
      obtain ⟨s2, h2, h3⟩ := h'
      obtain ⟨_, ha, hmem, hf1, hst1, hb1, ht1⟩ := remove_free_block_some h1
      obtain ⟨_, _, hmem2, hf2, hst2, hb2, ht2⟩ := remove_free_block_some h2
      obtain ⟨_, ham, hsc3, hf3, hst3, hb3, ht3⟩ := insert_free_block_some h3
      rw [hf1, upd_same] at hmem2
      have hs2f : s2.free_list =
          upd s.free_list k (erase_first (b ^^^ 2 ^ k) (erase_first b (s.free_list k))) := by
        rw [hf2, hf1, upd_same, upd_upd_same]
      rw [hs2f] at hsc3 hf3
      simp only [upd_other _ _ (show k + 1 ≠ k by omega)] at hsc3 hf3
      refine ⟨hk, Or.inr ⟨hc.1, hc.2, ha, ham, hmem, hmem2, hsc3, hf3, ?_, ?_, ?_⟩⟩
      · rw [hst3, hst2, hst1]
      · rw [hb3, hb2, hb1]
      · rw [ht3, ht2, ht1]
    · rw [if_neg hc] at h
      exact ⟨hk, Or.inl ⟨hc, (Option.some_inj.mp h).symm⟩⟩
  · simp [hk] at h

theorem xor_pow_of_aligned_succ {k b : Nat} (hb : b % 2 ^ (k + 1) = 0) :
    b ^^^ 2 ^ k = b + 2 ^ k := by
  obtain ⟨m, rfl⟩ : 2 ^ (k + 1) ∣ b := Nat.dvd_of_mod_eq_zero hb
  have hor : 2 ^ (k + 1) * m + 2 ^ k = 2 ^ (k + 1) * m ||| 2 ^ k :=
    Nat.mul_add_lt_is_or (Nat.pow_lt_pow_right (by norm_num) (Nat.lt_succ_self k)) m
  rw [hor]
  apply Nat.eq_of_testBit_eq
  intro i
  rw [Nat.testBit_xor, Nat.testBit_or]
  have h1 : 2 ^ (k + 1) * m = m <<< (k + 1) := by
    rw [Nat.shiftLeft_eq]; ring
  by_cases hik : i = k
  · subst hik
    rw [h1, Nat.testBit_shiftLeft]
    simp [Nat.testBit_two_pow]
  · have hki : ¬ k = i := fun h => hik h.symm
    have : (2 ^ k).testBit i = false := by
      simp [Nat.testBit_two_pow, hki]
    simp [this]

theorem xor_pow_cases {k b : Nat} (hb : block_aligned k b) :
    (block_aligned (k + 1) b ∧ b ^^^ 2 ^ k = b + 2 ^ k) ∨
    (block_aligned (k + 1) (b ^^^ 2 ^ k) ∧ (b ^^^ 2 ^ k) + 2 ^ k = b) := by
  obtain ⟨q, rfl⟩ : 2 ^ k ∣ b := Nat.dvd_of_mod_eq_zero hb
  rcases Nat.even_or_odd q with ⟨m, rfl⟩ | ⟨m, rfl⟩
  · left
    have h1 : 2 ^ k * (m + m) = 2 ^ (k + 1) * m := by ring
    rw [h1]
    exact ⟨by simp [block_aligned, Nat.mul_mod_right],
      xor_pow_of_aligned_succ (by simp [Nat.mul_mod_right])⟩
  · right
    have hb' : 2 ^ k * (2 * m + 1) = 2 ^ (k + 1) * m + 2 ^ k := by ring
    have hx : (2 ^ (k + 1) * m) ^^^ 2 ^ k = 2 ^ (k + 1) * m + 2 ^ k :=
      xor_pow_of_aligned_succ (by simp [Nat.mul_mod_right])
    have h2 : (2 ^ k * (2 * m + 1)) ^^^ 2 ^ k = 2 ^ (k + 1) * m := by
      rw [hb', ← hx, Nat.xor_assoc, Nat.xor_self, Nat.xor_zero]
    rw [h2, hb']
    exact ⟨by simp [block_aligned, Nat.mul_mod_right], rfl⟩

theorem xor_pow_ne {k b : Nat} (hb : block_aligned k b) : b ^^^ 2 ^ k ≠ b := by
  have h2 : 0 < 2 ^ k := Nat.pos_pow_of_pos k (by norm_num)
  rcases xor_pow_cases hb with ⟨_, h⟩ | ⟨_, h⟩ <;> omega

theorem xor_pow_aligned {k b : Nat} (hb : block_aligned k b) :
    block_aligned k (b ^^^ 2 ^ k) := by
  rcases xor_pow_cases hb with ⟨_, h⟩ | ⟨_, h⟩
  · rw [h]; exact block_aligned_add_self hb
  · have := block_aligned_mono (Nat.le_succ k) ‹block_aligned (k + 1) (b ^^^ 2 ^ k)›
    exact this

theorem split_block_ex (lo k b : Nat) (s : buddy)
    (hk1 : 1 ≤ k) (hk2 : k ≤ lo)
    (hmem : b ∈ s.free_list k) (hal : block_aligned k b)
    (h1 : b ∉ s.free_list (k - 1)) (h2 : b + 2 ^ (k - 1) ∉ s.free_list (k - 1)) :
    ∃ s', split_block lo k b s = some s' ∧
      s'.free_list k = erase_first b (s.free_list k) ∧
      s'.free_list (k - 1) = ins (b + 2 ^ (k - 1)) (ins b (s.free_list (k - 1))) ∧
      b ∈ s'.free_list (k - 1) ∧ b + 2 ^ (k - 1) ∈ s'.free_list (k - 1) ∧
      (∀ j, j ≠ k → j ≠ k - 1 → s'.free_list j = s.free_list j) ∧
      s'.st = s.st ∧ s'.fbs = s.fbs ∧ s'.total_free = s.total_free := by
  have hkk : k - 1 ≠ k := by omega
  have hal1 : block_aligned (k - 1) b := block_aligned_mono (by omega) hal
  have hal2 : block_aligned (k - 1) (b + 2 ^ (k - 1)) := block_aligned_add_self hal1
  have hp : (0 : Nat) < 2 ^ (k - 1) := Nat.pos_pow_of_pos _ (by norm_num)
  have hne : b + 2 ^ (k - 1) ≠ b := by omega
  obtain ⟨s1, hq1, hf1, hst1, hb1, ht1⟩ := remove_free_block_ex lo k b s hk2 hal hmem
  obtain ⟨s2, hq2, hf2, hst2, hb2, ht2⟩ :=
    insert_free_block_ex lo (k - 1) b s1 (by omega) hal1
      (by rw [hf1, upd_other _ _ hkk]; exact h1)
  have hs2l : s2.free_list (k - 1) = ins b (s.free_list (k - 1)) := by
    rw [hf2, upd_same, hf1, upd_other _ _ hkk]
  obtain ⟨s3, hq3, hf3, hst3, hb3, ht3⟩ :=
    insert_free_block_ex lo (k - 1) (b + 2 ^ (k - 1)) s2 (by omega) hal2
      (by
        rw [hs2l]
        intro hmm
        rcases mem_ins.mp hmm with h | h
        · exact hne h
        · exact h2 h)
  refine ⟨s3, ?_, ?_, ?_, ?_, ?_, ?_, ?_, ?_, ?_⟩
  · rw [split_block, if_neg (not_not_intro ⟨hk1, hk2⟩), hq1, Option.some_bind,
      hq2, Option.some_bind]
    simpa [pages_per_block] using hq3
  · rw [hf3, upd_other _ _ (fun h => hkk h.symm), hf2,
      upd_other _ _ (fun h => hkk h.symm), hf1, upd_same]
  · rw [hf3, upd_same, hs2l]
  · rw [hf3, upd_same]
    exact mem_ins.mpr (Or.inr (by rw [hs2l]; exact mem_ins.mpr (Or.inl rfl)))
  · rw [hf3, upd_same]
    exact mem_ins.mpr (Or.inl rfl)
  · intro j hj1 hj2
    rw [hf3, upd_other _ _ hj2, hf2, upd_other _ _ hj2, hf1, upd_other _ _ hj1]
  · rw [hst3, hst2, hst1]
  · rw [hb3, hb2, hb1]
  · rw [ht3, ht2, ht1]

/-- C4: for every order in `[1, LastOrder]` and every block free at that
order (present in free list `order`, aligned, with the two halves not yet
linked at `order - 1`), `split_block` removes the block from free list
`order` and inserts the block and its upper half, at frame
`block + 2^(order-1)`, into free list `order - 1`; no page state changes and
`total_free` is unchanged — only list membership changes. -/
theorem split_block_spec (lo k b : Nat) (s : buddy)
    (hk1 : 1 ≤ k) (hk2 : k ≤ lo)
    (hmem : b ∈ s.free_list k) (hal : block_aligned k b)
    (h1 : b ∉ s.free_list (k - 1)) (h2 : b + 2 ^ (k - 1) ∉ s.free_list (k - 1)) :
    ∃ s', split_block lo k b s = some s' ∧
      s'.free_list k = erase_first b (s.free_list k) ∧
      s'.free_list (k - 1) = ins (b + 2 ^ (k - 1)) (ins b (s.free_list (k - 1))) ∧
      b ∈ s'.free_list (k - 1) ∧ b + 2 ^ (k - 1) ∈ s'.free_list (k - 1) ∧
      (∀ j, j ≠ k → j ≠ k - 1 → s'.free_list j = s.free_list j) ∧
      s'.st = s.st ∧ s'.fbs = s.fbs ∧ s'.total_free = s.total_free :=
  split_block_ex lo k b s hk1 hk2 hmem hal h1 h2

/-- Witness for `split_block_spec`: splitting the order-2 block at frame 4
of the concrete state `stw` puts frames 4 and 6 into list 1, leaves list 2
as `[0]`, and changes no page state and not `total_free`. -/
theorem split_block_spec_witness :
    ∃ s', split_block 3 2 4 stw = some s' ∧
      s'.free_list 2 = [0] ∧ (4 : Nat) ∈ s'.free_list 1 ∧ (6 : Nat) ∈ s'.free_list 1 ∧
      s'.st = stw.st ∧ s'.total_free = stw.total_free := by
  obtain ⟨s', heq, hl2, hl1, hm1, hm2, _, hst, _, ht⟩ :=
    split_block_spec 3 2 4 stw (by norm_num) (by norm_num)
      (by decide) (by decide) (by decide) (by decide)
  refine ⟨s', heq, ?_, by simpa using hm1, by simpa using hm2, hst, ht⟩
  rw [hl2]
  decide

/-- C5: for every order below `LastOrder` and block free at that order,
`merge_buddies` computes the buddy frame as `block XOR 2^order` and merges
only if that buddy's head page is free (and aligned, which is automatic for
an aligned block): on success it removes both the block and the buddy from
free list `order` and inserts the lower-addressed of the two into free list
`order + 1`; if the buddy is not free it is a no-op that leaves the state
unchanged, not an error. -/
theorem merge_buddies_spec (lo k b : Nat) (s : buddy)
    (hk : k < lo) (hal : block_aligned k b) :
    (s.st (b ^^^ 2 ^ k) ≠ page_state.free → merge_buddies lo k b s = some s) ∧
    (s.st (b ^^^ 2 ^ k) = page_state.free →
      b ∈ s.free_list k →
      (b ^^^ 2 ^ k) ∈ erase_first b (s.free_list k) →
      (if (b ^^^ 2 ^ k) < b then b ^^^ 2 ^ k else b) ∉ s.free_list (k + 1) →
      ∃ s', merge_buddies lo k b s = some s' ∧
        s'.free_list k = erase_first (b ^^^ 2 ^ k) (erase_first b (s.free_list k)) ∧
        s'.free_list (k + 1) =
          ins (if (b ^^^ 2 ^ k) < b then b ^^^ 2 ^ k else b) (s.free_list (k + 1)) ∧
        (∀ j, j ≠ k → j ≠ k + 1 → s'.free_list j = s.free_list j) ∧
        s'.st = s.st ∧ s'.fbs = s.fbs ∧ s'.total_free = s.total_free) := by
  have halbd : block_aligned k (b ^^^ 2 ^ k) := xor_pow_aligned hal
  constructor
  · intro hne
    exact merge_buddies_noop hk (fun hc => hne hc.1)
  · intro hfree hmem hmem2 hnotmem
    have hkk1 : k + 1 ≠ k := by omega
    have halm : block_aligned (k + 1) (if (b ^^^ 2 ^ k) < b then b ^^^ 2 ^ k else b) := by
      have hp : (0 : Nat) < 2 ^ k := Nat.pos_pow_of_pos _ (by norm_num)
      rcases xor_pow_cases hal with ⟨ha, he⟩ | ⟨ha, he⟩
      · rw [if_neg (by omega)]
        exact ha
      · rw [if_pos (by omega)]
        exact ha
    obtain ⟨s1, hq1, hf1, hst1, hb1, ht1⟩ :=
      remove_free_block_ex lo k b s (Nat.le_of_lt hk) hal hmem
    obtain ⟨s2, hq2, hf2, hst2, hb2, ht2⟩ :=
      remove_free_block_ex lo k (b ^^^ 2 ^ k) s1 (Nat.le_of_lt hk) halbd
        (by rw [hf1, upd_same]; exact hmem2)
    have hs2k : s2.free_list k = erase_first (b ^^^ 2 ^ k) (erase_first b (s.free_list k)) := by
      rw [hf2, upd_same, hf1, upd_same]
    obtain ⟨s3, hq3, hf3, hst3, hb3, ht3⟩ :=
      insert_free_block_ex lo (k + 1) (if (b ^^^ 2 ^ k) < b then b ^^^ 2 ^ k else b) s2
        hk halm
        (by rw [hf2, upd_other _ _ hkk1, hf1, upd_other _ _ hkk1]; exact hnotmem)
    have hs2k1 : s2.free_list (k + 1) = s.free_list (k + 1) := by
      rw [hf2, upd_other _ _ hkk1, hf1, upd_other _ _ hkk1]
    refine ⟨s3, ?_, ?_, ?_, ?_, ?_, ?_, ?_⟩
    · rw [merge_buddies, if_neg (not_not_intro hk)]
      simp only [pages_per_block]
      rw [if_pos ⟨hfree, halbd⟩, hq1, Option.some_bind, hq2, Option.some_bind]
      exact hq3
    · rw [hf3, upd_other _ _ (fun h => hkk1 h.symm), hs2k]
    · rw [hf3, upd_same, hs2k1]
    · intro j hj1 hj2
      rw [hf3, upd_other _ _ hj2, hf2, upd_other _ _ hj1, hf1, upd_other _ _ hj1]
    · rw [hst3, hst2, hst1]
    · rw [hb3, hb2, hb1]
    · rw [ht3, ht2, ht1]

/-- Witness for `merge_buddies_spec`: in the concrete state `stw_merge`
(order-1 buddies at frames 0 and 2, both head pages free), merging at frame
0, order 1, removes both from list 1 and inserts frame 0 into list 2. -/
theorem merge_buddies_spec_witness :
    ∃ s', merge_buddies 2 1 0 stw_merge = some s' ∧
      s'.free_list 1 = [] ∧ s'.free_list 2 = [0] ∧
      s'.st = stw_merge.st ∧ s'.total_free = stw_merge.total_free := by
  obtain ⟨hnoop, hmerge⟩ := merge_buddies_spec 2 1 0 stw_merge (by norm_num) (by decide)
  obtain ⟨s', heq, hl1, hl2, _, hst, _, ht⟩ :=
    hmerge (by decide) (by decide) (by decide) (by decide)
  refine ⟨s', heq, ?_, ?_, hst, ht⟩
  · rw [hl1]; decide
  · rw [hl2]; decide

/-- C3 (divergence witness): with `LastOrder = 3`, inserting 8 contiguous
pages from frame 0 does NOT produce one block in list 3: the choosing loop's
`order < LastOrder` conjunct caps the chosen order at `LastOrder - 1`, so
the run is decomposed into two order-2 blocks (frames 0 and 4) and list 3
stays empty — contradicting both the claim and the function's own comment
("breaking them down into the largest blocks that fit"). -/
theorem insert_pages_caps_below_last_order :
    (insert_pages 3 0 8 initAllocated).map
      (fun s => (s.free_list 3, s.free_list 2, s.free_list 1, s.free_list 0)) =
      some ([], [0, 4], [], []) := by
  rfl

/-- C6 (divergence witness): `insert_pages` never updates `total_free_`, so
after inserting one page into the empty allocator the counter is 0 while
the free lists hold one page: conservation fails immediately. -/
theorem insert_pages_breaks_conservation :
    (insert_pages 3 0 1 initAllocated).map
      (fun s => (s.total_free, sum_free 3 s, s.free_list 0)) =
      some (0, 1, [0]) := by
  rfl

/-- C2 (divergence witness): with `LastOrder = 2`, after the valid sequence
insert 4 pages at 0, allocate order 0 (returns 0), allocate order 0
(returns 1), free 0 at order 0, free 1 at order 0, the last `free_pages`
returns with blocks 0 and 2 both in free list 1.  They are buddies
(`0 XOR 2^1 = 2`), both free and unmerged: the cascade in `free_pages` kept
using the originally freed frame 1 instead of the merged block 0, computed
1 XOR 2 = 3, found it unaligned and stopped. -/
theorem free_pages_merge_incomplete :
    ((insert_pages 2 0 4 initAllocated).bind fun s1 =>
      (allocate_pages 2 0 s1).bind fun p2 =>
        (allocate_pages 2 0 p2.2).bind fun p3 =>
          (free_pages 2 0 0 p3.2).bind fun s4 =>
            (free_pages 2 1 0 s4).map fun s5 =>
              (p2.1, p3.1, s5.free_list 1, s5.free_list 2)) =
      some (some 0, some 1, [0, 2], []) ∧ (0 : Nat) ^^^ 2 ^ 1 = 2 := by
  exact ⟨rfl, rfl⟩

/-- C8 (divergence witness): caller contract violations that do NOT halt.
First, the logging revision's `remove_free_block` on a block that is not
present in the list merely logs and returns, state unchanged.  Second, even
in the assert-based revision, `free_pages` on a block that is not currently
allocated (frame 0 is free, linked at order 1 after inserting two pages)
returns normally and leaves frame 0 linked in free lists 0 and 1 at once —
a silent free-list corruption instead of a fatal halt. -/
theorem contract_violation_not_fatal :
    remove_free_block_logging 2 0 0 initAllocated = some initAllocated ∧
      ((insert_pages 2 0 2 initAllocated).bind fun s1 => free_pages 2 0 0 s1).map
          (fun s => (s.free_list 0, s.free_list 1)) =
        some ([0], [0]) := by
  exact ⟨rfl, rfl⟩

theorem merge_buddies_fbs {lo k b : Nat} {s s' : buddy}
    (h : merge_buddies lo k b s = some s') : s'.fbs = s.fbs := by
  rcases merge_buddies_some h with ⟨_, ⟨_, rfl⟩ | ⟨_, _, _, _, _, _, _, _, _, hfbs, _⟩⟩
  · rfl
  · exact hfbs

theorem split_block_fbs {lo k b : Nat} {s s' : buddy}
    (h : split_block lo k b s = some s') : s'.fbs = s.fbs :=
  (split_block_some h).2.2.2.2.2.2.2.2.1

theorem split_loop_fbs {lo base : Nat} :
    ∀ {n : Nat} {s s' : buddy}, split_loop lo base n s = some s' → s'.fbs = s.fbs := by
  intro n
  induction n with
  | zero =>
      intro s s' h
      simp [split_loop] at h
      rw [h]
  | succ n ih =>
      intro s s' h
      rw [split_loop] at h
      rcases hl : s.free_list (base + n + 1) with _ | ⟨b, tl⟩
      · rw [hl] at h; exact absurd h (by simp)
      · rw [hl] at h
        simp only [Option.bind_eq_some] at h
        obtain ⟨s1, h1, h2⟩ := h
        rw [ih h2, split_block_fbs h1]

theorem free_loop_fbs {lo b : Nat} :
    ∀ {fuel o : Nat} {s s' : buddy}, free_loop lo b fuel o s = some s' → s'.fbs = s.fbs := by
  intro fuel
  induction fuel with
  | zero =>
      intro o s s' h
      simp [free_loop] at h
      rw [h]
  | succ fuel ih =>
      intro o s s' h
      rw [free_loop] at h
      by_cases h1 : ¬ o < lo
      · rw [if_pos h1] at h
        simp at h
        rw [h]
      · rw [if_neg h1] at h
        by_cases h2 : s.st (b ^^^ pages_per_block o) ≠ page_state.free ∨
            ¬ block_aligned o (b ^^^ pages_per_block o)
        · rw [if_pos h2] at h
          simp at h
          rw [h]
        · rw [if_neg h2] at h
          simp only [Option.bind_eq_some] at h
          obtain ⟨s1, hm, hrest⟩ := h
          rw [ih hrest, merge_buddies_fbs hm]

theorem allocate_pages_fbs {lo k : Nat} {s : buddy} {r : Option Nat} {s' : buddy}
    (h : allocate_pages lo k s = some (r, s')) : s'.fbs = s.fbs := by
  rw [allocate_pages] at h
  by_cases h1 : lo < k
  · rw [if_pos h1] at h
    simp at h
    rw [h.2]
  · rw [if_neg h1] at h
    rcases hsc : scan_order lo k s with _ | co
    · rw [hsc] at h
      simp at h
      rw [h.2]
    · rw [hsc] at h
      simp only [Option.bind_eq_some] at h
      obtain ⟨s1, hsl, h2⟩ := h
      rcases hl : s1.free_list k with _ | ⟨b, tl⟩
      · rw [hl] at h2; exact absurd h2 (by simp)
      · rw [hl] at h2
        simp only [Option.map_eq_some'] at h2
        obtain ⟨s2, hrem, heq⟩ := h2
        cases heq
        show s2.fbs = s.fbs
        rw [(remove_free_block_some hrem).2.2.2.2.2.1, split_loop_fbs hsl]

theorem free_pages_fbs {lo b k : Nat} {s s' : buddy}
    (h : free_pages lo b k s = some s') : s'.fbs = s.fbs := by
  rw [free_pages] at h
  by_cases h1 : lo < k
  · rw [if_pos h1] at h; exact absurd h (by simp)
  · rw [if_neg h1] at h
    simp only [Option.bind_eq_some] at h
    obtain ⟨s1, hins, hloop⟩ := h
    have h2 := (insert_free_block_some hins).2.2.2.2.2.1
    have h3 := free_loop_fbs hloop
    rw [h3]
    show s1.fbs = s.fbs
    rw [h2]

/-- C10: the `free_block_size_` field is written only by `insert_pages`:
`split_block`, `merge_buddies`, `allocate_pages` and `free_pages` all leave
it untouched whenever they return.  Consequently the field goes stale, and
after `insert_pages(0, 8)` followed by `allocate_pages(0)` (with
`LastOrder = 3`), `remove_pages(0, 8)` reads `free_block_size_ = 4` at frame
0, derives order 2 (`order_of_size`), and calls `remove_free_block` at order
2 where frame 0 is no longer linked — a fatal assert, modelled as `none`. -/
theorem fbs_stale_order_recovery :
    (∀ lo k b : Nat, ∀ s s' : buddy, split_block lo k b s = some s' → s'.fbs = s.fbs) ∧
    (∀ lo k b : Nat, ∀ s s' : buddy, merge_buddies lo k b s = some s' → s'.fbs = s.fbs) ∧
    (∀ lo k : Nat, ∀ s : buddy, ∀ r : Option Nat, ∀ s' : buddy,
      allocate_pages lo k s = some (r, s') → s'.fbs = s.fbs) ∧
    (∀ lo b k : Nat, ∀ s s' : buddy, free_pages lo b k s = some s' → s'.fbs = s.fbs) ∧
    order_of_size 4 4 0 = 2 ∧
    ((insert_pages 3 0 8 initAllocated).bind fun s1 => allocate_pages 3 0 s1).map
        (fun p => (p.2.fbs 0, decide ((0 : Nat) ∈ p.2.free_list 2), remove_pages 3 0 8 p.2)) =
      some (4, false, none) := by
  refine ⟨?_, ?_, ?_, ?_, rfl, rfl⟩
  · intro lo k b s s' h; exact split_block_fbs h
  · intro lo k b s s' h; exact merge_buddies_fbs h
  · intro lo k s r s' h; exact allocate_pages_fbs h
  · intro lo b k s s' h; exact free_pages_fbs h

/-- Witness for `fbs_stale_order_recovery`: its universally quantified
conjuncts applied at the concrete split of `stw`. -/
theorem fbs_stale_order_recovery_witness :
    ∃ s', split_block 3 2 4 stw = some s' ∧ s'.fbs = stw.fbs :=
  ⟨_, rfl, fbs_stale_order_recovery.1 3 2 4 stw _ rfl⟩

theorem scan_aux_none {lo : Nat} {s : buddy} :
    ∀ {fuel o : Nat}, lo + 1 ≤ fuel + o →
      (scan_aux lo s fuel o = none ↔ ∀ j, o ≤ j → j ≤ lo → s.free_list j = []) := by
  intro fuel
  induction fuel with
  | zero =>
      intro o hf
      simp only [scan_aux]
      constructor
      · intro _ j hj1 hj2
        omega
      · intro _
        trivial
  | succ fuel ih =>
      intro o hf
      rw [scan_aux]
      by_cases h1 : lo < o
      · simp only [if_pos h1]
        constructor
        · intro _ j hj1 hj2
          omega
        · intro _
          trivial
      · rw [if_neg h1]
        by_cases h2 : s.free_list o = []
        · rw [if_pos h2, ih (by omega)]
          constructor
          · intro h j hj1 hj2
            rcases Nat.eq_or_lt_of_le hj1 with rfl | hlt
            · exact h2
            · exact h j hlt hj2
          · intro h j hj1 hj2
            exact h j (by omega) hj2
        · simp only [if_neg h2]
          constructor
          · intro h
            exact absurd h (by simp)
          · intro h
            exact absurd (h o (le_refl o) (by omega)) h2

theorem scan_aux_some {lo : Nat} {s : buddy} :
    ∀ {fuel o co : Nat}, scan_aux lo s fuel o = some co →
      o ≤ co ∧ co ≤ lo ∧ s.free_list co ≠ [] ∧
        ∀ j, o ≤ j → j < co → s.free_list j = [] := by
  intro fuel
  induction fuel with
  | zero => intro o co h; simp [scan_aux] at h
  | succ fuel ih =>
      intro o co h
      rw [scan_aux] at h
      by_cases h1 : lo < o
      · simp [h1] at h
      · rw [if_neg h1] at h
        by_cases h2 : s.free_list o = []
        · rw [if_pos h2] at h
          obtain ⟨hoc, hcl, hne, hall⟩ := ih h
          refine ⟨by omega, hcl, hne, ?_⟩
          intro j hj1 hj2
          rcases Nat.eq_or_lt_of_le hj1 with rfl | hlt
          · exact h2
          · exact hall j hlt hj2
        · simp only [if_neg h2, Option.some_inj] at h
          subst h
          exact ⟨le_refl o, by omega, h2, fun j hj1 hj2 => by omega⟩

theorem scan_order_none {lo order : Nat} {s : buddy} :
    scan_order lo order s = none ↔ ∀ j, order ≤ j → j ≤ lo → s.free_list j = [] := by
  by_cases h : order ≤ lo
  · exact scan_aux_none (by omega)
  · rw [scan_order]
    have h0 : lo + 1 - order = 0 := by omega
    rw [h0]
    simp only [scan_aux]
    constructor
    · intro _ j hj1 hj2
      omega
    · intro _
      trivial

theorem scan_order_some {lo order co : Nat} {s : buddy}
    (h : scan_order lo order s = some co) :
    order ≤ co ∧ co ≤ lo ∧ s.free_list co ≠ [] ∧
      ∀ j, order ≤ j → j < co → s.free_list j = [] :=
  scan_aux_some h

theorem scan_aux_intro {lo co : Nat} {s : buddy} (h2 : co ≤ lo)
    (h3 : s.free_list co ≠ []) :
    ∀ {fuel o : Nat}, o ≤ co → co + 1 ≤ fuel + o →
      (∀ j, o ≤ j → j < co → s.free_list j = []) →
      scan_aux lo s fuel o = some co := by
  intro fuel
  induction fuel with
  | zero =>
      intro o ho hf _
      omega
  | succ fuel ih =>
      intro o ho hf hall
      rw [scan_aux, if_neg (by omega : ¬ lo < o)]
      rcases Nat.eq_or_lt_of_le ho with rfl | hlt
      · rw [if_neg h3]
      · rw [if_pos (hall o (le_refl o) hlt)]
        exact ih (by omega) (by omega) (fun j hj1 hj2 => hall j (by omega) hj2)

theorem scan_order_intro {lo order co : Nat} {s : buddy}
    (h1 : order ≤ co) (h2 : co ≤ lo) (h3 : s.free_list co ≠ [])
    (h4 : ∀ j, order ≤ j → j < co → s.free_list j = []) :
    scan_order lo order s = some co :=
  scan_aux_intro h2 h3 h1 (by omega) h4

theorem ins_pair (b d : Nat) (hd : 0 < d) : ins (b + d) (ins b []) = [b, b + d] := by
  simp [ins, Nat.lt_add_of_pos_right hd]

theorem erase_first_head (b : Nat) (tl : List Nat) : erase_first b (b :: tl) = tl := by
  simp [erase_first]

theorem split_loop_spec {lo base : Nat} :
    ∀ (n : Nat) (s : buddy) (b : Nat) (tl : List Nat),
      base + n + 1 ≤ lo →
      s.free_list (base + n + 1) = b :: tl →
      block_aligned (base + n + 1) b →
      (∀ j, base ≤ j → j < base + n + 1 → s.free_list j = []) →
      ∃ s', split_loop lo base (n + 1) s = some s' ∧
        s'.free_list (base + n + 1) = tl ∧
        s'.free_list base = [b, b + 2 ^ base] ∧
        (∀ j, base < j → j < base + n + 1 → s'.free_list j = [b + 2 ^ j]) ∧
        (∀ j, j < base ∨ base + n + 1 < j → s'.free_list j = s.free_list j) ∧
        s'.st = s.st ∧ s'.fbs = s.fbs ∧ s'.total_free = s.total_free := by
  intro n
  induction n with
  | zero =>
      intro s b tl hle hhead hal hempty
      have hk1 : base + 0 + 1 - 1 = base := by omega
      have hbase : s.free_list base = [] := hempty base (le_refl base) (by omega)
      obtain ⟨sA, hq, hlk, hlk1, _, _, hout, hstA, hbA, htA⟩ :=
        split_block_ex lo (base + 0 + 1) b s (by omega) hle
          (by rw [hhead]; exact List.mem_cons_self b tl) hal
          (by rw [hk1, hbase]; simp)
          (by rw [hk1, hbase]; simp)
      rw [hk1] at hlk1
      refine ⟨sA, ?_, ?_, ?_, ?_, ?_, hstA, hbA, htA⟩
      · simp only [split_loop, hhead]
        rw [hq, Option.some_bind]
      · rw [hlk, hhead, erase_first_head]
      · rw [hlk1, hbase]
        exact ins_pair b (2 ^ base) (Nat.pos_pow_of_pos _ (by norm_num))
      · intro j hj1 hj2
        omega
      · intro j hj
        exact hout j (by omega) (by rw [hk1]; omega)
  | succ n ih =>
      intro s b tl hle hhead hal hempty
      have hk1 : base + (n + 1) + 1 - 1 = base + n + 1 := by omega
      have hemp : s.free_list (base + n + 1) = [] :=
        hempty (base + n + 1) (by omega) (by omega)
      obtain ⟨sA, hq, hlk, hlk1, _, _, hout, hstA, hbA, htA⟩ :=
        split_block_ex lo (base + (n + 1) + 1) b s (by omega) hle
          (by rw [hhead]; exact List.mem_cons_self b tl) hal
          (by rw [hk1, hemp]; simp)
          (by rw [hk1, hemp]; simp)
      rw [hk1] at hlk1
      have hlA : sA.free_list (base + n + 1) = [b, b + 2 ^ (base + n + 1)] := by
        rw [hlk1, hemp]
        exact ins_pair b (2 ^ (base + n + 1)) (Nat.pos_pow_of_pos _ (by norm_num))
      obtain ⟨s', hq', hl1, hl2, hmid, hout', hst', hb', ht'⟩ :=
        ih sA b [b + 2 ^ (base + n + 1)] (by omega) hlA
          (block_aligned_mono (by omega) hal)
          (by
            intro j hj1 hj2
            rw [hout j (by omega) (by rw [hk1]; omega)]
            exact hempty j hj1 (by omega))
      refine ⟨s', ?_, ?_, hl2, ?_, ?_, ?_, ?_, ?_⟩
      · simp only [split_loop, hhead]
        rw [hq, Option.some_bind]
        exact hq'
      · rw [hout' (base + (n + 1) + 1) (Or.inr (by omega)), hlk, hhead,
          erase_first_head]
      · intro j hj1 hj2
        rcases Nat.lt_or_ge j (base + n + 1) with hlt | hge
        · exact hmid j hj1 hlt
        · have hj : j = base + n + 1 := by omega
          subst hj
          rw [hl1]
      · intro j hj
        rw [hout' j (by omega), hout j (by omega) (by rw [hk1]; omega)]
      · rw [hst', hstA]
      · rw [hb', hbA]
      · rw [ht', htA]

theorem allocate_pages_success (lo order : Nat) (s : buddy)
    (hA : ∀ o b, b ∈ s.free_list o → block_aligned o b)
    (co b : Nat) (tl : List Nat)
    (hoc : order ≤ co) (hcl : co ≤ lo)
    (hall : ∀ j, order ≤ j → j < co → s.free_list j = [])
    (hco : s.free_list co = b :: tl) :
    ∃ s', allocate_pages lo order s = some (some b, s') ∧
      s'.free_list co = tl ∧
      (∀ j, order ≤ j → j < co → s'.free_list j = [b + 2 ^ j]) ∧
      (∀ j, j < order ∨ co < j → s'.free_list j = s.free_list j) ∧
      s'.st = upd s.st b page_state.allocated ∧
      s'.fbs = s.fbs ∧
      s'.total_free = sub64 s.total_free (2 ^ order) := by
  have hsc : scan_order lo order s = some co :=
    scan_order_intro hoc hcl (by rw [hco]; simp) hall
  have hal : block_aligned co b := hA co b (by rw [hco]; exact List.mem_cons_self b tl)
  rcases Nat.eq_or_lt_of_le hoc with rfl | hlt
  · obtain ⟨s2, hq2, hf2, hst2, hb2, ht2⟩ :=
      remove_free_block_ex lo order b s hcl hal
        (by rw [hco]; exact List.mem_cons_self b tl)
    refine ⟨{ s2 with
              st := upd s2.st b page_state.allocated,
              total_free := sub64 s2.total_free (pages_per_block order) },
      ?_, ?_, ?_, ?_, ?_, ?_, ?_⟩
    · simp only [allocate_pages, if_neg (by omega : ¬ lo < order), hsc]
      rw [Nat.sub_self]
      simp only [split_loop, Option.some_bind]
      rw [hco]
      simp only []
      rw [hq2]
      rfl
    · show s2.free_list order = tl
      rw [hf2, upd_same, hco, erase_first_head]
    · intro j hj1 hj2
      omega
    · intro j hj
      show s2.free_list j = s.free_list j
      rw [hf2, upd_other _ _ (by omega : j ≠ order)]
    · show upd s2.st b page_state.allocated = upd s.st b page_state.allocated
      rw [hst2]
    · exact hb2
    · show sub64 s2.total_free (pages_per_block order) = sub64 s.total_free (2 ^ order)
      rw [ht2]
      rfl
  · obtain ⟨m, rfl⟩ : ∃ m, co = order + m + 1 := ⟨co - order - 1, by omega⟩
    obtain ⟨s1, hq1, hl1, hl2, hmid, hout1, hst1, hb1, ht1⟩ :=
      split_loop_spec m s b tl hcl hco hal (fun j hj1 hj2 => hall j hj1 hj2)
    have halb : block_aligned order b := block_aligned_mono (by omega) hal
    obtain ⟨s2, hq2, hf2, hst2, hb2, ht2⟩ :=
      remove_free_block_ex lo order b s1 (by omega) halb
        (by rw [hl2]; exact List.mem_cons_self _ _)
    refine ⟨{ s2 with
              st := upd s2.st b page_state.allocated,
              total_free := sub64 s2.total_free (pages_per_block order) },
      ?_, ?_, ?_, ?_, ?_, ?_, ?_⟩
    · simp only [allocate_pages, if_neg (by omega : ¬ lo < order), hsc]
      rw [show order + m + 1 - order = m + 1 from by omega, hq1, Option.some_bind, hl2]
      simp only []
      rw [hq2]
      rfl
    · show s2.free_list (order + m + 1) = tl
      rw [hf2, upd_other _ _ (by omega : order + m + 1 ≠ order), hl1]
    · intro j hj1 hj2
      show s2.free_list j = [b + 2 ^ j]
      by_cases hje : j = order
      · subst hje
        rw [hf2, upd_same, hl2, erase_first_head]
      · rw [hf2, upd_other _ _ hje, hmid j (by omega) (by omega)]
    · intro j hj
      show s2.free_list j = s.free_list j
      rw [hf2, upd_other _ _ (by omega : j ≠ order), hout1 j hj]
    · show upd s2.st b page_state.allocated = upd s.st b page_state.allocated
      rw [hst2, hst1]
    · show s2.fbs = s.fbs
      rw [hb2, hb1]
    · show sub64 s2.total_free (pages_per_block order) = sub64 s.total_free (2 ^ order)
      rw [ht2, ht1]
      rfl

/-- C1: `allocate_pages(order, flags)`, on a state whose free lists satisfy
the alignment and sortedness invariants, returns the no-block failure (and
leaves the state untouched, in particular it never merges lower-order
buddies to satisfy the request) exactly when the order is out of range or
every free list from `order` up to `LastOrder` is empty.  Otherwise, with
`co` the first non-empty list at or above `order` and `b` its head (the
least element of that list), it splits downward leaving the upper half
`b + 2^j` in each list `order <= j < co`, removes `b` from list `order`,
marks page `b` allocated, subtracts `2^order` from `total_free` (u64
arithmetic) and returns `b`. -/
theorem allocate_pages_spec (lo order : Nat) (s : buddy)
    (hA : ∀ o b, b ∈ s.free_list o → block_aligned o b)
    (hS : sorted_inv s) :
    (allocate_pages lo order s = some (none, s) ↔
      lo < order ∨ ∀ j, order ≤ j → j ≤ lo → s.free_list j = []) ∧
    (∀ co b tl, order ≤ co → co ≤ lo →
      (∀ j, order ≤ j → j < co → s.free_list j = []) →
      s.free_list co = b :: tl →
      (∀ x ∈ s.free_list co, b ≤ x) ∧
      ∃ s', allocate_pages lo order s = some (some b, s') ∧
        s'.free_list co = tl ∧
        (∀ j, order ≤ j → j < co → s'.free_list j = [b + 2 ^ j]) ∧
        (∀ j, j < order ∨ co < j → s'.free_list j = s.free_list j) ∧
        s'.st = upd s.st b page_state.allocated ∧
        s'.fbs = s.fbs ∧
        s'.total_free = sub64 s.total_free (2 ^ order)) := by
  constructor
  · constructor
    · intro h
      by_cases h1 : lo < order
      · exact Or.inl h1
      · refine Or.inr ?_
        by_contra hne
        push_neg at hne
        obtain ⟨j, hj1, hj2, hj3⟩ := hne
        rcases hscan : scan_order lo order s with _ | co
        · exact hj3 (scan_order_none.mp hscan j hj1 hj2)
        · obtain ⟨hoc, hcl, hne2, hall⟩ := scan_order_some hscan
          rcases hh : s.free_list co with _ | ⟨b, tl⟩
          · exact hne2 hh
          · obtain ⟨s', hq, _⟩ :=
              allocate_pages_success lo order s hA co b tl hoc hcl hall hh
            rw [h] at hq
            simp at hq
    · intro h
      by_cases h1 : lo < order
      · simp [allocate_pages, if_pos h1]
      · rcases h with h2 | h2
        · exact absurd h2 h1
        · have hn : scan_order lo order s = none := scan_order_none.mpr h2
          simp [allocate_pages, if_neg h1, hn]
  · intro co b tl hoc hcl hall hco
    constructor
    · intro x hx
      have hs := hS co
      rw [hco] at hs hx
      rcases List.mem_cons.mp hx with rfl | hx'
      · exact le_refl x
      · exact le_of_lt ((List.sorted_cons.mp hs).1 x hx')
    · exact allocate_pages_success lo order s hA co b tl hoc hcl hall hco

/-- Witness for `allocate_pages_spec`: allocating order 0 from the concrete
state `stw` (order-2 blocks at frames 0 and 4) returns frame 0, leaves
`[4]` in list 2, the split remainders in lists 1 and 0, and marks page 0
allocated. -/
theorem allocate_pages_spec_witness :
    ∃ s', allocate_pages 3 0 stw = some (some 0, s') ∧
      s'.free_list 2 = [4] ∧ s'.free_list 1 = [0 + 2 ^ 1] ∧
      s'.free_list 0 = [0 + 2 ^ 0] ∧
      s'.st = upd stw.st 0 page_state.allocated := by
  have hA : ∀ o b, b ∈ stw.free_list o → block_aligned o b := by
    intro o b hb
    by_cases ho : o = 2
    · subst ho
      have : b = 0 ∨ b = 4 := by simpa [stw] using hb
      rcases this with rfl | rfl <;> decide
    · simp [stw, ho] at hb
  have hS : sorted_inv stw := by
    intro o
    by_cases ho : o = 2 <;> simp [stw, ho]
  obtain ⟨_, hsucc⟩ := allocate_pages_spec 3 0 stw hA hS
  obtain ⟨hmin, s', hq, hl2, hmid, hout, hst, hfbs, ht⟩ :=
    hsucc 2 0 [4] (by omega) (by omega)
      (by
        intro j hj1 hj2
        interval_cases j <;> rfl)
      rfl
  exact ⟨s', hq, by rw [hl2], hmid 1 (by omega) (by omega), hmid 0 (by omega) (by omega), hst⟩

theorem buddy_ext {a b : buddy} (h1 : a.free_list = b.free_list)
    (h2 : a.st = b.st) (h3 : a.fbs = b.fbs) (h4 : a.total_free = b.total_free) :
    a = b := by
  cases a
  cases b
  simp only at h1 h2 h3 h4
  simp [h1, h2, h3, h4]

theorem upd_comm {α : Type} (f : Nat → α) {i j : Nat} (v w : α) (h : i ≠ j) :
    upd (upd f i v) j w = upd (upd f j w) i v := by
  funext x
  by_cases hx1 : x = j
  · subst hx1
    rw [upd_same, upd_other _ _ (fun hh => h hh.symm), upd_same]
  · by_cases hx2 : x = i
    · subst hx2
      rw [upd_other _ _ hx1, upd_same, upd_same]
    · rw [upd_other _ _ hx1, upd_other _ _ hx2, upd_other _ _ hx2, upd_other _ _ hx1]

theorem erase_first_comm {b p : Nat} :
    ∀ (l : List Nat), erase_first b (erase_first p l) = erase_first p (erase_first b l) := by
  intro l
  by_cases hbp : b = p
  · subst hbp
    rfl
  · induction l with
    | nil => rfl
    | cons x xs ih =>
        by_cases hx1 : x = p
        · subst hx1
          rw [erase_first, if_pos rfl, erase_first, if_neg (fun hh => hbp hh.symm),
            erase_first, if_pos rfl]
        · by_cases hx2 : x = b
          · subst hx2
            rw [erase_first, if_neg hx1, erase_first, if_pos rfl, erase_first,
              if_pos rfl]
          · rw [erase_first, if_neg hx1, erase_first, if_neg hx2, erase_first,
              if_neg hx2, erase_first, if_neg hx1, ih]

theorem erase_first_ins (b : Nat) : ∀ (l : List Nat), erase_first b (ins b l) = l := by
  intro l
  induction l with
  | nil => simp [ins, erase_first]
  | cons x xs ih =>
      by_cases hx : x < b
      · have hxb : x ≠ b := by omega
        rw [ins, if_pos hx, erase_first, if_neg hxb, ih]
      · rw [ins, if_neg hx, erase_first, if_pos rfl]

theorem order_of_size_pow {oe : Nat} :
    ∀ {fuel o : Nat}, o ≤ oe → oe ≤ fuel + o → order_of_size (2 ^ oe) fuel o = oe := by
  intro fuel
  induction fuel with
  | zero =>
      intro o h1 h2
      have : o = oe := by omega
      subst this
      rfl
  | succ fuel ih =>
      intro o h1 h2
      rcases Nat.eq_or_lt_of_le h1 with rfl | hlt
      · rw [order_of_size, if_neg (by simp [pages_per_block])]
      · rw [order_of_size,
          if_pos (by simpa [pages_per_block] using Nat.pow_lt_pow_right (by norm_num) hlt)]
        exact ih (by omega) (by omega)

theorem choose_aux_ge {lo start endp : Nat} :
    ∀ {fuel o : Nat}, o ≤ choose_aux lo start endp fuel o := by
  intro fuel
  induction fuel with
  | zero => intro o; exact le_refl o
  | succ fuel ih =>
      intro o
      rw [choose_aux]
      by_cases h : start + pages_per_block o ≤ endp ∧ block_aligned o start ∧ o < lo
      · rw [if_pos h]
        exact le_trans (by omega) ih
      · rw [if_neg h]

theorem choose_aux_cond {lo start endp : Nat} :
    ∀ {fuel o : Nat}, o < choose_aux lo start endp fuel o →
      start + 2 ^ (choose_aux lo start endp fuel o - 1) ≤ endp ∧
        block_aligned (choose_aux lo start endp fuel o - 1) start ∧
        choose_aux lo start endp fuel o - 1 < lo := by
  intro fuel
  induction fuel with
  | zero =>
      intro o h
      simp [choose_aux] at h
  | succ fuel ih =>
      intro o h
      rw [choose_aux] at h ⊢
      by_cases hc : start + pages_per_block o ≤ endp ∧ block_aligned o start ∧ o < lo
      · rw [if_pos hc] at h ⊢
        by_cases h2 : o + 1 < choose_aux lo start endp fuel (o + 1)
        · exact ih h2
        · have hge : o + 1 ≤ choose_aux lo start endp fuel (o + 1) := choose_aux_ge
          have heq : choose_aux lo start endp fuel (o + 1) = o + 1 := by omega
          rw [heq]
          simpa [pages_per_block] using hc
      · rw [if_neg hc] at h
        omega

theorem insert_aux_fbs_lt {lo : Nat} :
    ∀ {fuel p e : Nat} {s s' : buddy}, insert_aux lo fuel p e s = some s' →
      ∀ q, q < p → s'.fbs q = s.fbs q := by
  intro fuel
  induction fuel with
  | zero =>
      intro p e s s' h q hq
      rw [insert_aux] at h
      by_cases h1 : p < e
      · simp [h1] at h
      · rw [if_neg h1] at h
        simp at h
        rw [h]
  | succ fuel ih =>
      intro p e s s' h q hq
      rw [insert_aux] at h
      by_cases h1 : p < e
      · rw [if_pos h1] at h
        rcases hc : choose_aux lo p e lo 0 with _ | oe
        · rw [hc] at h
          exact absurd h (by simp)
        · rw [hc] at h
          simp only [Option.bind_eq_some] at h
          obtain ⟨sA, hins, hrest⟩ := h
          have hfA := (insert_free_block_some hins).2.2.2.2.2.1
          have hstep := ih hrest q
            (by
              have : (0 : Nat) < pages_per_block oe := Nat.pos_pow_of_pos _ (by norm_num)
              omega)
          rw [hstep, hfA]
          show upd s.fbs p (pages_per_block oe) q = s.fbs q
          rw [upd_other _ _ (by omega : q ≠ p)]
      · rw [if_neg h1] at h
        simp at h
        rw [h]

theorem insert_aux_mem_mono {lo : Nat} :
    ∀ {fuel p e : Nat} {s s' : buddy}, insert_aux lo fuel p e s = some s' →
      ∀ o x, x ∈ s.free_list o → x ∈ s'.free_list o := by
  intro fuel
  induction fuel with
  | zero =>
      intro p e s s' h o x hx
      rw [insert_aux] at h
      by_cases h1 : p < e
      · simp [h1] at h
      · rw [if_neg h1] at h
        simp at h
        rw [h] at hx
        exact hx
  | succ fuel ih =>
      intro p e s s' h o x hx
      rw [insert_aux] at h
      by_cases h1 : p < e
      · rw [if_pos h1] at h
        rcases hc : choose_aux lo p e lo 0 with _ | oe
        · rw [hc] at h
          exact absurd h (by simp)
        · rw [hc] at h
          simp only [Option.bind_eq_some] at h
          obtain ⟨sA, hins, hrest⟩ := h
          have hfA := (insert_free_block_some hins).2.2.2.1
          refine ih hrest o x ?_
          rw [hfA]
          by_cases ho : o = oe
          · subst ho
            rw [upd_same]
            exact mem_ins.mpr (Or.inr hx)
          · rw [upd_other _ _ ho]
            exact hx
      · rw [if_neg h1] at h
        simp at h
        rw [h] at hx
        exact hx

theorem sorted_inv_insert {lo o b : Nat} {s s' : buddy}
    (h : insert_free_block lo o b s = some s') (hS : sorted_inv s) :
    sorted_inv s' := by
  obtain ⟨_, _, hsc, hf, _, _, _⟩ := insert_free_block_some h
  intro j
  rw [hf]
  by_cases hj : j = o
  · subst hj
    rw [upd_same]
    exact sorted_ins (hS j) (not_mem_of_sorted_insert_scan (hS j) hsc)
  · rw [upd_other _ _ hj]
    exact hS j

theorem remove_aux_comm {lo : Nat} :
    ∀ {fuel p e : Nat} {s t : buddy} {k b : Nat},
      remove_aux lo fuel p e s = some t →
      b < p → b ∈ s.free_list k →
      remove_aux lo fuel p e (unlink k b s) = some (unlink k b t) := by
  intro fuel
  induction fuel with
  | zero =>
      intro p e s t k b h hbp hbm
      rw [remove_aux] at h ⊢
      by_cases h1 : p < e
      · simp [h1] at h
      · rw [if_neg h1] at h ⊢
        simp at h
        rw [h]
  | succ fuel ih =>
      intro p e s t k b h hbp hbm
      rw [remove_aux] at h ⊢
      by_cases h1 : p < e
      · rw [if_pos h1] at h ⊢
        have hder : derive_order lo p (unlink k b s) = derive_order lo p s := rfl
        simp only [hder]
        by_cases h2 : lo < derive_order lo p s
        · rw [if_pos h2] at h
          exact absurd h (by simp)
        · rw [if_neg h2] at h ⊢
          simp only [Option.bind_eq_some] at h
          obtain ⟨sB, hrem, hrest⟩ := h
          obtain ⟨hol, hal, hpm, hfB, hstB, hbB, htB⟩ := remove_free_block_some hrem
          have hbpne : b ≠ p := by omega
          have hpmu : p ∈ (unlink k b s).free_list (derive_order lo p s) := by
            show p ∈ upd s.free_list k (erase_first b (s.free_list k)) (derive_order lo p s)
            by_cases hk : derive_order lo p s = k
            · rw [hk, upd_same]
              rw [hk] at hpm
              exact mem_erase_first_of_ne hpm (fun hh => hbpne hh.symm)
            · rw [upd_other _ _ hk]
              exact hpm
          have hrem2 : remove_free_block lo (derive_order lo p s) p (unlink k b s) =
              some (unlink k b sB) := by
            rw [remove_free_block_of_mem hol hal hpmu]
            refine congrArg some (buddy_ext ?_ ?_ ?_ ?_)
            · show upd (unlink k b s).free_list (derive_order lo p s)
                  (erase_first p ((unlink k b s).free_list (derive_order lo p s))) =
                upd sB.free_list k (erase_first b (sB.free_list k))
              rw [hfB]
              show upd (upd s.free_list k (erase_first b (s.free_list k)))
                  (derive_order lo p s)
                  (erase_first p (upd s.free_list k (erase_first b (s.free_list k))
                    (derive_order lo p s))) =
                upd (upd s.free_list (derive_order lo p s)
                    (erase_first p (s.free_list (derive_order lo p s)))) k
                  (erase_first b (upd s.free_list (derive_order lo p s)
                    (erase_first p (s.free_list (derive_order lo p s))) k))
              by_cases hk : derive_order lo p s = k
              · rw [hk, upd_same, upd_same, upd_upd_same, upd_upd_same,
                  erase_first_comm]
              · rw [upd_other _ _ hk, upd_other _ _ (fun hh => hk hh.symm),
                  upd_comm _ _ _ (fun hh => hk hh.symm)]
            · exact hstB.symm
            · exact hbB.symm
            · exact htB.symm
          rw [hrem2, Option.some_bind]
          refine ih hrest (by
            have : (0 : Nat) < pages_per_block (derive_order lo p s) :=
              Nat.pos_pow_of_pos _ (by norm_num)
            omega) ?_
          rw [hfB]
          by_cases hk : derive_order lo p s = k
          · rw [hk, upd_same]
            rw [hk] at hpm
            exact mem_erase_first_of_ne hbm hbpne
          · rw [upd_other _ _ (fun hh => hk hh.symm)]
            exact hbm
      · rw [if_neg h1] at h ⊢
        simp at h
        rw [h]

theorem insert_remove_aux_roundtrip {lo : Nat} :
    ∀ (fuel : Nat) {p e : Nat} {s s1 : buddy},
      sorted_inv s →
      insert_aux lo fuel p e s = some s1 →
      ∃ s2, remove_aux lo fuel p e s1 = some s2 ∧
        (∀ o, s2.free_list o = s.free_list o) ∧ s2.total_free = s.total_free := by
  intro fuel
  induction fuel with
  | zero =>
      intro p e s s1 hS h
      rw [insert_aux] at h
      by_cases h1 : p < e
      · simp [h1] at h
      · rw [if_neg h1] at h
        simp at h
        subst h
        refine ⟨s, ?_, fun o => rfl, rfl⟩
        rw [remove_aux, if_neg h1]
  | succ fuel ih =>
      intro p e s s1 hS h
      rw [insert_aux] at h
      by_cases h1 : p < e
      · rw [if_pos h1] at h
        rcases hc : choose_aux lo p e lo 0 with _ | oe
        · rw [hc] at h
          exact absurd h (by simp)
        · rw [hc] at h
          simp only [Option.bind_eq_some] at h
          obtain ⟨sA, hins, hrest⟩ := h
          obtain ⟨hoel, hal, hscan, hfA, hstA, hbA, htA⟩ := insert_free_block_some hins
          have hSA : sorted_inv sA := sorted_inv_insert hins hS
          obtain ⟨s2', hrem', hfl', ht'⟩ := ih hSA hrest
          have hfbs1 : s1.fbs p = pages_per_block oe := by
            rw [insert_aux_fbs_lt hrest p
              (by
                have : (0 : Nat) < pages_per_block oe := Nat.pos_pow_of_pos _ (by norm_num)
                omega)]
            rw [hbA]
            exact upd_same _ _ _
          have hder : derive_order lo p s1 = oe := by
            rw [derive_order, hfbs1,
              if_pos (show (0 : Nat) < pages_per_block oe from
                Nat.pos_pow_of_pos _ (by norm_num))]
            exact order_of_size_pow (Nat.zero_le oe)
              (by simpa [pages_per_block] using Nat.le_of_lt (Nat.lt_two_pow oe))
          have hmemA : p ∈ sA.free_list oe := by
            rw [hfA, upd_same]
            exact mem_ins.mpr (Or.inl rfl)
          have hmem1 : p ∈ s1.free_list oe := insert_aux_mem_mono hrest oe p hmemA
          have hrem1 : remove_free_block lo oe p s1 = some (unlink oe p s1) :=
            remove_free_block_of_mem hoel hal hmem1
          have hcomm := remove_aux_comm hrem'
            (by
              have : (0 : Nat) < pages_per_block oe := Nat.pos_pow_of_pos _ (by norm_num)
              omega)
            hmem1
          refine ⟨unlink oe p s2', ?_, ?_, ?_⟩
          · rw [remove_aux, if_pos h1]
            simp only [hder]
            rw [if_neg (by omega : ¬ lo < oe), hrem1, Option.some_bind]
            exact hcomm
          · intro o
            show upd s2'.free_list oe (erase_first p (s2'.free_list oe)) o = s.free_list o
            by_cases ho : o = oe
            · subst ho
              rw [upd_same, hfl' o, hfA, upd_same]
              show erase_first p (ins p (s.free_list o)) = s.free_list o
              exact erase_first_ins p (s.free_list o)
            · rw [upd_other _ _ ho, hfl' o, hfA, upd_other _ _ ho]
          · show s2'.total_free = s.total_free
            rw [ht', htA]
      · rw [if_neg h1] at h
        simp at h
        subst h
        refine ⟨s, ?_, fun o => rfl, rfl⟩
        rw [remove_aux, if_neg h1]

/-- C9: `insert_pages(p, n)` immediately followed by `remove_pages(p, n)`,
on a state whose free lists are sorted (invariant I3), restores every free
list exactly and leaves `total_free` at its pre-insert value (the code
leaves the counter untouched on both paths). -/
theorem insert_remove_pages_roundtrip (lo p n : Nat) (s s1 : buddy)
    (hS : sorted_inv s) (h : insert_pages lo p n s = some s1) :
    ∃ s2, remove_pages lo p n s1 = some s2 ∧
      (∀ o, s2.free_list o = s.free_list o) ∧ s2.total_free = s.total_free :=
  insert_remove_aux_roundtrip n hS h

/-- Witness for `insert_remove_pages_roundtrip`: inserting 8 pages at frame
0 with `LastOrder = 3` into the empty allocator and removing them again
leaves every free list empty and `total_free` at 0. -/
theorem insert_remove_pages_roundtrip_witness :
    ∃ s1 s2, insert_pages 3 0 8 initAllocated = some s1 ∧
      remove_pages 3 0 8 s1 = some s2 ∧
      s2.free_list 2 = [] ∧ s2.free_list 3 = [] ∧ s2.total_free = 0 := by
  obtain ⟨s2, hr, hfl, ht⟩ :=
    insert_remove_pages_roundtrip 3 0 8 initAllocated _
      (fun o => List.sorted_nil) rfl
  refine ⟨_, s2, rfl, hr, ?_, ?_, ?_⟩
  · rw [hfl 2]
    rfl
  · rw [hfl 3]
    rfl
  · rw [ht]
    rfl

theorem Inv_remove {lo o b : Nat} {s s' : buddy}
    (h : remove_free_block lo o b s = some s') (hI : Inv s) : Inv s' := by
  obtain ⟨_, _, _, hf, _, _, _⟩ := remove_free_block_some h
  have hmem : ∀ j x, x ∈ s'.free_list j → x ∈ s.free_list j := by
    intro j x hx
    rw [hf] at hx
    by_cases hj : j = o
    · subst hj
      rw [upd_same] at hx
      exact mem_of_mem_erase_first hx
    · rw [upd_other _ _ hj] at hx
      exact hx
  constructor
  · intro j
    rw [hf]
    by_cases hj : j = o
    · subst hj
      rw [upd_same]
      exact sorted_erase_first (hI.1 j)
    · rw [upd_other _ _ hj]
      exact hI.1 j
  · intro o1 b1 o2 b2 h1 h2 hne
    exact hI.2 o1 b1 o2 b2 (hmem o1 b1 h1) (hmem o2 b2 h2) hne

theorem Inv_insert {lo o b : Nat} {s s' : buddy}
    (h : insert_free_block lo o b s = some s') (hI : Inv s)
    (hD : ∀ o2 b2, b2 ∈ s.free_list o2 → b + 2 ^ o ≤ b2 ∨ b2 + 2 ^ o2 ≤ b) :
    Inv s' := by
  obtain ⟨_, _, hsc, hf, _, _, _⟩ := insert_free_block_some h
  have hpos : (0 : Nat) < 2 ^ o := Nat.pos_pow_of_pos _ (by norm_num)
  have hbnot : ∀ o2, b ∉ s.free_list o2 := by
    intro o2 hmem
    have hp2 : (0 : Nat) < 2 ^ o2 := Nat.pos_pow_of_pos _ (by norm_num)
    rcases hD o2 b hmem with hcon | hcon <;> omega
  have hmem : ∀ j x, x ∈ s'.free_list j →
      (j = o ∧ x = b) ∨ x ∈ s.free_list j := by
    intro j x hx
    rw [hf] at hx
    by_cases hj : j = o
    · subst hj
      rw [upd_same] at hx
      rcases mem_ins.mp hx with rfl | hx'
      · exact Or.inl ⟨rfl, rfl⟩
      · exact Or.inr hx'
    · rw [upd_other _ _ hj] at hx
      exact Or.inr hx
  constructor
  · exact sorted_inv_insert h hI.1
  · intro o1 b1 o2 b2 h1 h2 hne
    rcases hmem o1 b1 h1 with ⟨rfl, rfl⟩ | h1'
    · rcases hmem o2 b2 h2 with ⟨rfl, rfl⟩ | h2'
      · exact absurd ⟨rfl, rfl⟩ hne
      · exact hD o2 b2 h2'
    · rcases hmem o2 b2 h2 with ⟨rfl, rfl⟩ | h2'
      · rcases hD o1 b1 h1' with hc | hc
        · exact Or.inr hc
        · exact Or.inl hc
      · exact hI.2 o1 b1 o2 b2 h1' h2' hne

theorem Inv_split {lo k b : Nat} {s s' : buddy}
    (h : split_block lo k b s = some s') (hI : Inv s) : Inv s' := by
  rw [split_block] at h
  by_cases hk : 1 ≤ k ∧ k ≤ lo
  · rw [if_neg (not_not_intro hk)] at h
    simp only [Option.bind_eq_some] at h
    obtain ⟨s1, h1, h'⟩ := h
    obtain ⟨s2, h2, h3⟩ := h'
    obtain ⟨_, hal, hbm, hf1, _, _, _⟩ := remove_free_block_some h1
    have hI1 : Inv s1 := Inv_remove h1 hI
    have hnodup : b ∉ erase_first b (s.free_list k) :=
      not_mem_erase_first_of_sorted (hI.1 k)
    have hmem1 : ∀ j x, x ∈ s1.free_list j →
        x ∈ s.free_list j ∧ ¬ (j = k ∧ x = b) := by
      intro j x hx
      rw [hf1] at hx
      by_cases hj : j = k
      · subst hj
        rw [upd_same] at hx
        refine ⟨mem_of_mem_erase_first hx, ?_⟩
        rintro ⟨-, rfl⟩
        exact hnodup hx
      · rw [upd_other _ _ hj] at hx
        exact ⟨hx, fun hc => hj hc.1⟩
    have hpos : (0 : Nat) < 2 ^ (k - 1) := Nat.pos_pow_of_pos _ (by norm_num)
    have hpows : 2 ^ (k - 1) + 2 ^ (k - 1) = 2 ^ k := by
      have hp := pow_succ 2 (k - 1)
      rw [show k - 1 + 1 = k from by omega] at hp
      omega
    have hD1 : ∀ o2 b2, b2 ∈ s1.free_list o2 →
        b + 2 ^ (k - 1) ≤ b2 ∨ b2 + 2 ^ o2 ≤ b := by
      intro o2 b2 hb2
      obtain ⟨hb2s, hb2ne⟩ := hmem1 o2 b2 hb2
      have := hI.2 k b o2 b2 hbm hb2s (fun hc => hb2ne ⟨hc.1.symm, hc.2.symm⟩)
      rcases this with hc | hc
      · left
        omega
      · right
        exact hc
    have hI2 : Inv s2 := Inv_insert h2 hI1 hD1
    obtain ⟨_, _, _, hf2, _, _, _⟩ := insert_free_block_some h2
    have hmem2 : ∀ j x, x ∈ s2.free_list j →
        (j = k - 1 ∧ x = b) ∨ (x ∈ s.free_list j ∧ ¬ (j = k ∧ x = b)) := by
      intro j x hx
      rw [hf2] at hx
      by_cases hj : j = k - 1
      · subst hj
        rw [upd_same] at hx
        rcases mem_ins.mp hx with rfl | hx'
        · exact Or.inl ⟨rfl, rfl⟩
        · exact Or.inr (hmem1 _ x hx')
      · rw [upd_other _ _ hj] at hx
        exact Or.inr (hmem1 j x hx)
    have hD2 : ∀ o2 b2, b2 ∈ s2.free_list o2 →
        (b + 2 ^ (k - 1)) + 2 ^ (k - 1) ≤ b2 ∨ b2 + 2 ^ o2 ≤ b + 2 ^ (k - 1) := by
      intro o2 b2 hb2
      rcases hmem2 o2 b2 hb2 with ⟨rfl, rfl⟩ | ⟨hb2s, hb2ne⟩
      · right
        omega
      · have := hI.2 k b o2 b2 hbm hb2s (fun hc => hb2ne ⟨hc.1.symm, hc.2.symm⟩)
        rcases this with hc | hc
        · left
          omega
        · right
          omega
    exact Inv_insert h3 hI2 hD2
  · rw [if_pos hk] at h
    exact absurd h (by simp)

theorem Inv_merge {lo k b : Nat} {s s' : buddy}
    (h : merge_buddies lo k b s = some s') (hI : Inv s) : Inv s' := by
  obtain ⟨hk, hcase⟩ := merge_buddies_some h
  rcases hcase with ⟨_, rfl⟩ | ⟨hfree, halbd, hal, halm, hbm, hbdm, hsc, hf, hst, hb, ht⟩
  · exact hI
  · have hp : (0 : Nat) < 2 ^ k := Nat.pos_pow_of_pos _ (by norm_num)
    have hbdmem : (b ^^^ 2 ^ k) ∈ s.free_list k := mem_of_mem_erase_first hbdm
    have hpow : 2 ^ (k + 1) = 2 ^ k + 2 ^ k := by
      rw [pow_succ]
      omega
    have hnotm : (if (b ^^^ 2 ^ k) < b then b ^^^ 2 ^ k else b) ∉ s.free_list (k + 1) :=
      not_mem_of_sorted_insert_scan (hI.1 (k + 1)) hsc
    have hkk1 : k + 1 ≠ k := by omega
    have hmem' : ∀ j x, x ∈ s'.free_list j →
        (j = k + 1 ∧ x = (if (b ^^^ 2 ^ k) < b then b ^^^ 2 ^ k else b)) ∨
        (x ∈ s.free_list j ∧ ¬ (j = k ∧ x = b) ∧ ¬ (j = k ∧ x = b ^^^ 2 ^ k)) := by
      intro j x hx
      rw [hf] at hx
      by_cases hj1 : j = k + 1
      · subst hj1
        rw [upd_same] at hx
        rcases mem_ins.mp hx with rfl | hx'
        · exact Or.inl ⟨rfl, rfl⟩
        · exact Or.inr ⟨hx', fun hc => hkk1 hc.1, fun hc => hkk1 hc.1⟩
      · rw [upd_other _ _ hj1] at hx
        by_cases hj2 : j = k
        · subst hj2
          rw [upd_same] at hx
          have hxk : x ∈ s.free_list j := mem_of_mem_erase_first (mem_of_mem_erase_first hx)
          refine Or.inr ⟨hxk, ?_, ?_⟩
          · rintro ⟨-, rfl⟩
            exact not_mem_erase_first_of_sorted (hI.1 j) (mem_of_mem_erase_first hx)
          · rintro ⟨-, rfl⟩
            exact not_mem_erase_first_of_sorted (sorted_erase_first (hI.1 j)) hx
        · rw [upd_other _ _ hj2] at hx
          exact Or.inr ⟨hx, fun hc => hj2 hc.1, fun hc => hj2 hc.1⟩
    constructor
    · intro j
      rw [hf]
      by_cases hj1 : j = k + 1
      · subst hj1
        rw [upd_same]
        exact sorted_ins (hI.1 (k + 1)) hnotm
      · rw [upd_other _ _ hj1]
        by_cases hj2 : j = k
        · subst hj2
          rw [upd_same]
          exact sorted_erase_first (sorted_erase_first (hI.1 j))
        · rw [upd_other _ _ hj2]
          exact hI.1 j
    · intro o1 b1 o2 b2 h1 h2 hne
      have key : ∀ j x, x ∈ s.free_list j → ¬ (j = k ∧ x = b) →
          ¬ (j = k ∧ x = b ^^^ 2 ^ k) →
          (if (b ^^^ 2 ^ k) < b then b ^^^ 2 ^ k else b) + 2 ^ (k + 1) ≤ x ∨
          x + 2 ^ j ≤ (if (b ^^^ 2 ^ k) < b then b ^^^ 2 ^ k else b) := by
        intro j x hxs hx1 hx2
        have hpj : (0 : Nat) < 2 ^ j := Nat.pos_pow_of_pos _ (by norm_num)
        have h1' := hI.2 k b j x hbm hxs (fun hc => hx1 ⟨hc.1.symm, hc.2.symm⟩)
        have h2' := hI.2 k (b ^^^ 2 ^ k) j x hbdmem hxs
          (fun hc => hx2 ⟨hc.1.symm, hc.2.symm⟩)
        rcases xor_pow_cases hal with ⟨_, he⟩ | ⟨_, he⟩
        · rw [if_neg (by omega : ¬ (b ^^^ 2 ^ k) < b)]
          rcases h1' with hc1 | hc1 <;> rcases h2' with hc2 | hc2 <;> omega
        · rw [if_pos (by omega : (b ^^^ 2 ^ k) < b)]
          rcases h1' with hc1 | hc1 <;> rcases h2' with hc2 | hc2 <;> omega
      rcases hmem' o1 b1 h1 with ⟨rfl, rfl⟩ | ⟨h1s, h1a, h1b⟩
      · rcases hmem' o2 b2 h2 with ⟨rfl, rfl⟩ | ⟨h2s, h2a, h2b⟩
        · exact absurd ⟨rfl, rfl⟩ hne
        · exact key o2 b2 h2s h2a h2b
      · rcases hmem' o2 b2 h2 with ⟨rfl, rfl⟩ | ⟨h2s, h2a, h2b⟩
        · rcases key o1 b1 h1s h1a h1b with hc | hc
          · exact Or.inr hc
          · exact Or.inl hc
        · exact hI.2 o1 b1 o2 b2 h1s h2s hne

theorem Inv_split_loop {lo base : Nat} :
    ∀ {n : Nat} {s s' : buddy}, split_loop lo base n s = some s' → Inv s → Inv s' := by
  intro n
  induction n with
  | zero =>
      intro s s' h hI
      simp [split_loop] at h
      rw [← h]
      exact hI
  | succ n ih =>
      intro s s' h hI
      rw [split_loop] at h
      rcases hl : s.free_list (base + n + 1) with _ | ⟨b, tl⟩
      · rw [hl] at h
        exact absurd h (by simp)
      · rw [hl] at h
        simp only [Option.bind_eq_some] at h
        obtain ⟨s1, h1, h2⟩ := h
        exact ih h2 (Inv_split h1 hI)

theorem Inv_free_loop {lo b : Nat} :
    ∀ {fuel o : Nat} {s s' : buddy}, free_loop lo b fuel o s = some s' → Inv s → Inv s' := by
  intro fuel
  induction fuel with
  | zero =>
      intro o s s' h hI
      simp [free_loop] at h
      rw [← h]
      exact hI
  | succ fuel ih =>
      intro o s s' h hI
      rw [free_loop] at h
      by_cases h1 : ¬ o < lo
      · rw [if_pos h1] at h
        simp at h
        rw [← h]
        exact hI
      · rw [if_neg h1] at h
        by_cases h2 : s.st (b ^^^ pages_per_block o) ≠ page_state.free ∨
            ¬ block_aligned o (b ^^^ pages_per_block o)
        · rw [if_pos h2] at h
          simp at h
          rw [← h]
          exact hI
        · rw [if_neg h2] at h
          simp only [Option.bind_eq_some] at h
          obtain ⟨s1, hm, hrest⟩ := h
          exact ih hrest (Inv_merge hm hI)

theorem Inv_allocate {lo k : Nat} {s : buddy} {r : Option Nat} {s' : buddy}
    (h : allocate_pages lo k s = some (r, s')) (hI : Inv s) : Inv s' := by
  rw [allocate_pages] at h
  by_cases h1 : lo < k
  · rw [if_pos h1] at h
    simp at h
    rw [← h.2]
    exact hI
  · rw [if_neg h1] at h
    rcases hsc : scan_order lo k s with _ | co
    · rw [hsc] at h
      simp at h
      rw [← h.2]
      exact hI
    · rw [hsc] at h
      simp only [Option.bind_eq_some] at h
      obtain ⟨s1, hsl, h2⟩ := h
      rcases hl : s1.free_list k with _ | ⟨b, tl⟩
      · rw [hl] at h2
        exact absurd h2 (by simp)
      · rw [hl] at h2
        simp only [Option.map_eq_some'] at h2
        obtain ⟨s2, hrem, heq⟩ := h2
        cases heq
        show Inv s2
        exact Inv_remove hrem (Inv_split_loop hsl hI)

theorem Inv_free_pages {lo b k : Nat} {s s' : buddy}
    (h : free_pages lo b k s = some s') (hI : Inv s)
    (hD : ∀ o2 b2, b2 ∈ s.free_list o2 → b + 2 ^ k ≤ b2 ∨ b2 + 2 ^ o2 ≤ b) :
    Inv s' := by
  rw [free_pages] at h
  by_cases h1 : lo < k
  · rw [if_pos h1] at h
    exact absurd h (by simp)
  · rw [if_neg h1] at h
    simp only [Option.bind_eq_some] at h
    obtain ⟨s1, hins, hloop⟩ := h
    have hI1 : Inv s1 := Inv_insert hins hI (fun o2 b2 hb2 => hD o2 b2 hb2)
    refine Inv_free_loop hloop ?_
    exact hI1

theorem Inv_remove_aux {lo : Nat} :
    ∀ {fuel p e : Nat} {s s' : buddy}, remove_aux lo fuel p e s = some s' →
      Inv s → Inv s' := by
  intro fuel
  induction fuel with
  | zero =>
      intro p e s s' h hI
      rw [remove_aux] at h
      by_cases h1 : p < e
      · simp [h1] at h
      · rw [if_neg h1] at h
        simp at h
        rw [← h]
        exact hI
  | succ fuel ih =>
      intro p e s s' h hI
      rw [remove_aux] at h
      by_cases h1 : p < e
      · rw [if_pos h1] at h
        by_cases h2 : lo < derive_order lo p s
        · rw [if_pos h2] at h
          exact absurd h (by simp)
        · rw [if_neg h2] at h
          simp only [Option.bind_eq_some] at h
          obtain ⟨s1, hrem, hrest⟩ := h
          exact ih hrest (Inv_remove hrem hI)
      · rw [if_neg h1] at h
        simp at h
        rw [← h]
        exact hI

theorem Inv_insert_aux {lo : Nat} :
    ∀ {fuel p e : Nat} {s s' : buddy}, insert_aux lo fuel p e s = some s' →
      Inv s →
      (∀ o2 b2, b2 ∈ s.free_list o2 → b2 + 2 ^ o2 ≤ p ∨ e ≤ b2) →
      Inv s' := by
  intro fuel
  induction fuel with
  | zero =>
      intro p e s s' h hI _
      rw [insert_aux] at h
      by_cases h1 : p < e
      · simp [h1] at h
      · rw [if_neg h1] at h
        simp at h
        rw [← h]
        exact hI
  | succ fuel ih =>
      intro p e s s' h hI hD
      rw [insert_aux] at h
      by_cases h1 : p < e
      · rw [if_pos h1] at h
        rcases hc : choose_aux lo p e lo 0 with _ | oe
        · rw [hc] at h
          exact absurd h (by simp)
        · rw [hc] at h
          simp only [Option.bind_eq_some] at h
          obtain ⟨sA, hins, hrest⟩ := h
          have hcond := @choose_aux_cond lo p e lo 0
            (by rw [hc]; omega)
          rw [hc] at hcond
          simp only [Nat.add_sub_cancel] at hcond
          obtain ⟨hfit, _, _⟩ := hcond
          have hIA : Inv sA := by
            refine Inv_insert hins hI ?_
            intro o2 b2 hb2
            rcases hD o2 b2 hb2 with hc2 | hc2
            · exact Or.inr hc2
            · left
              omega
          refine ih hrest hIA ?_
          obtain ⟨_, _, _, hfA, _, _, _⟩ := insert_free_block_some hins
          intro o2 b2 hb2
          rw [hfA] at hb2
          by_cases ho : o2 = oe
          · subst ho
            rw [upd_same] at hb2
            rcases mem_ins.mp hb2 with rfl | hb2'
            · left
              show b2 + 2 ^ o2 ≤ b2 + pages_per_block o2
              simp [pages_per_block]
            · rcases hD o2 b2 hb2' with hc2 | hc2
              · left
                have : (0 : Nat) < pages_per_block o2 := Nat.pos_pow_of_pos _ (by norm_num)
                omega
              · right
                exact hc2
          · rw [upd_other _ _ ho] at hb2
            rcases hD o2 b2 hb2 with hc2 | hc2
            · left
              have : (0 : Nat) < pages_per_block oe := Nat.pos_pow_of_pos _ (by norm_num)
              omega
            · right
              exact hc2
      · rw [if_neg h1] at h
        simp at h
        rw [← h]
        exact hI

/-- C7: between public operations no two blocks simultaneously present
across the free lists overlap in frame range, and in particular no block
head is linked into more than one free list at a time.  Formally: `Inv`
(sortedness plus pairwise range-disjointness of all linked blocks) holds in
the initial state and is preserved by every completed public operation —
`insert_pages` of a range disjoint from all current free blocks,
`allocate_pages`, `free_pages` of a block disjoint from all current free
blocks (as a currently-allocated block is), and `remove_pages`; and for any
state satisfying `Inv`, distinct block occurrences have disjoint ranges and
no frame heads lists at two orders. -/
theorem no_overlap_between_operations :
    (∀ st0, Inv (init st0)) ∧
    (∀ s : buddy, Inv s → ∀ o1 b1 o2 b2, b1 ∈ s.free_list o1 → b2 ∈ s.free_list o2 →
      ¬ (o1 = o2 ∧ b1 = b2) → b1 + 2 ^ o1 ≤ b2 ∨ b2 + 2 ^ o2 ≤ b1) ∧
    (∀ s : buddy, Inv s → ∀ o1 o2 b, b ∈ s.free_list o1 → b ∈ s.free_list o2 →
      o1 = o2) ∧
    (∀ lo p n : Nat, ∀ s s' : buddy, Inv s →
      (∀ o2 b2, b2 ∈ s.free_list o2 → b2 + 2 ^ o2 ≤ p ∨ p + n ≤ b2) →
      insert_pages lo p n s = some s' → Inv s') ∧
    (∀ lo k : Nat, ∀ s : buddy, ∀ r : Option Nat, ∀ s' : buddy, Inv s →
      allocate_pages lo k s = some (r, s') → Inv s') ∧
    (∀ lo b k : Nat, ∀ s s' : buddy, Inv s →
      (∀ o2 b2, b2 ∈ s.free_list o2 → b + 2 ^ k ≤ b2 ∨ b2 + 2 ^ o2 ≤ b) →
      free_pages lo b k s = some s' → Inv s') ∧
    (∀ lo p n : Nat, ∀ s s' : buddy, Inv s → remove_pages lo p n s = some s' →
      Inv s') := by
  refine ⟨?_, ?_, ?_, ?_, ?_, ?_, ?_⟩
  · intro st0
    exact ⟨fun o => List.sorted_nil, fun o1 b1 o2 b2 h1 _ _ => absurd h1 (List.not_mem_nil b1)⟩
  · intro s hI o1 b1 o2 b2 h1 h2 hne
    exact hI.2 o1 b1 o2 b2 h1 h2 hne
  · intro s hI o1 o2 b h1 h2
    by_contra ho
    have hp1 : (0 : Nat) < 2 ^ o1 := Nat.pos_pow_of_pos _ (by norm_num)
    have hp2 : (0 : Nat) < 2 ^ o2 := Nat.pos_pow_of_pos _ (by norm_num)
    rcases hI.2 o1 b o2 b h1 h2 (fun hc => ho hc.1) with hc | hc <;> omega
  · intro lo p n s s' hI hD h
    exact Inv_insert_aux h hI hD
  · intro lo k s r s' hI h
    exact Inv_allocate h hI
  · intro lo b k s s' hI hD h
    exact Inv_free_pages h hI hD
  · intro lo p n s s' hI h
    exact Inv_remove_aux h hI

/-- Witness for `no_overlap_between_operations`: inserting one page at
frame 0 into the empty allocator preserves the no-overlap invariant. -/
theorem no_overlap_between_operations_witness :
    ∃ s', insert_pages 3 0 1 initAllocated = some s' ∧ Inv s' := by
  refine ⟨_, rfl, ?_⟩
  exact no_overlap_between_operations.2.2.2.1 3 0 1 initAllocated _
    ⟨fun o => List.sorted_nil, fun o1 b1 o2 b2 h1 _ _ => absurd h1 (List.not_mem_nil b1)⟩
    (fun o2 b2 h2 => absurd h2 (List.not_mem_nil b2))
    rfl

end BuddyAlloc

